import Mathlib

/-!
Verification of a string-based exact decimal calculator.

The program validates textual decimal literals and performs exact signed
addition on arbitrary-precision sign-magnitude decimal values represented
as digit strings.  We embed the C++ source shallowly: `std::string`
becomes `List Char`, the index-based digit loops become structural
recursions over the reversed digit lists (the C++ loops run from the last
index down to index 0, i.e. least-significant digit first), and `int`
locals that may go negative (the borrow in subtraction) become `Int`.
-/

namespace Lab10

/-- `c - '0'` on digit characters (C++ `x[i] - '0'`). -/
def dChar (c : Char) : Nat := c.toNat - 48

/-- C++ `std::isdigit` on the characters that occur here: `'0'..'9'`. -/
def cpp_isdigit (c : Char) : Bool := decide (48 ≤ c.toNat ∧ c.toNat ≤ 57)

/-- `trim_leading_zeros`: drop leading `'0'` characters but keep at least
one character (C++ keeps `s[i]` while `i + 1 < s.size()`). -/
def trim_leading_zeros : List Char → List Char
  | c :: c2 :: cs => if c = '0' then trim_leading_zeros (c2 :: cs) else c :: c2 :: cs
  | s => s

/-- `trim_trailing_zeros`: pop `'0'` characters from the back while the
string is non-empty (C++ `while (!s.empty() && s.back() == '0') s.pop_back()`). -/
def trim_trailing_zeros (s : List Char) : List Char :=
  (s.reverse.dropWhile fun c => c == '0').reverse

/-- `is_valid_double_literal`: optional single sign, one-or-more digits,
optionally a single `'.'` followed by one-or-more digits, nothing else. -/
def is_valid_double_literal (x : List Char) : Bool :=
  match x with
  | [] => false
  | c :: cs =>
    let rest := if c = '+' ∨ c = '-' then cs else x
    match rest with
    | [] => false
    | d :: ds =>
      if ¬ cpp_isdigit d then false
      else
        match ds.dropWhile cpp_isdigit with
        | [] => true
        | e :: es =>
          if e = '.' then
            match es with
            | [] => false
            | f :: fs =>
              if ¬ cpp_isdigit f then false
              else decide (fs.dropWhile cpp_isdigit = [])
          else false

/-- The body of `is_valid_double_literal` from the position just after the
optional sign: one-or-more digits, optionally a single `'.'` followed by
one-or-more digits, nothing else. -/
def valid_rest : List Char → Bool
  | [] => false
  | d :: ds =>
    if ¬ cpp_isdigit d then false
    else
      match ds.dropWhile cpp_isdigit with
      | [] => true
      | e :: es =>
        if e = '.' then
          match es with
          | [] => false
          | f :: fs =>
            if ¬ cpp_isdigit f then false
            else decide (fs.dropWhile cpp_isdigit = [])
        else false

/-- The sign-magnitude decimal record (`struct BigDecimal`). -/
structure BigDecimal where
  sign : Int := 1
  intPart : List Char := ['0']
  fracPart : List Char := []
deriving DecidableEq, Repr

/-- `BigDecimal::isZero`. -/
def BigDecimal.isZero (v : BigDecimal) : Bool :=
  decide (v.intPart = ['0'] ∧ v.fracPart = [])

/-- Split off an optional leading sign (default positive), as the parser
does: `if (x[i] == '+') ... else if (x[i] == '-') ...`. -/
def lit_sign (x : List Char) : Int × List Char :=
  match x with
  | c :: r => if c = '+' then (1, r) else if c = '-' then (-1, r) else (1, x)
  | [] => (1, x)

/-- The substring before the first `'.'` (all of `r` when there is no dot). -/
def int_of (r : List Char) : List Char := r.takeWhile fun c => c != '.'

/-- The substring after the first `'.'` (empty when there is no dot). -/
def frac_of (r : List Char) : List Char :=
  match r.dropWhile (fun c => c != '.') with
  | _ :: f => f
  | [] => []

/-- `parse_normalize`: strip sign, split at the first dot, trim leading
zeros of the integer part and trailing zeros of the fractional part, and
force canonical zero to be positive. -/
def parse_normalize (x : List Char) : BigDecimal :=
  let p := lit_sign x
  let ip := trim_leading_zeros (int_of p.2)
  let fp := trim_trailing_zeros (frac_of p.2)
  if ip = ['0'] ∧ fp = [] then { sign := 1, intPart := ip, fracPart := fp }
  else { sign := p.1, intPart := ip, fracPart := fp }

/-- `align_frac`: right-pad both fractional parts with `'0'` to the common
(maximal) length. -/
def align_frac (a b : BigDecimal) : BigDecimal × BigDecimal :=
  let L := max a.fracPart.length b.fracPart.length
  ({ a with fracPart := a.fracPart ++ List.replicate (L - a.fracPart.length) '0' },
   { b with fracPart := b.fracPart ++ List.replicate (L - b.fracPart.length) '0' })

/-- C++ `std::string` `operator<`: lexicographic comparison by character code. -/
def str_lt : List Char → List Char → Bool
  | _, [] => false
  | [], _ :: _ => true
  | a :: as, b :: bs =>
    if a.toNat < b.toNat then true
    else if b.toNat < a.toNat then false
    else str_lt as bs

/-- `cmp_abs`: compare `|a|` and `|b|`; `-1`, `0` or `+1`. -/
def cmp_abs (a0 b0 : BigDecimal) : Int :=
  let p := align_frac a0 b0
  if p.1.intPart.length ≠ p.2.intPart.length then
    if p.1.intPart.length < p.2.intPart.length then -1 else 1
  else if p.1.intPart ≠ p.2.intPart then
    if str_lt p.1.intPart p.2.intPart then -1 else 1
  else if p.1.fracPart ≠ p.2.fracPart then
    if str_lt p.1.fracPart p.2.fracPart then -1 else 1
  else 0

/-- Left-pad with `'0'` to length `n` (C++ `s.insert(0, n - s.size(), '0')`,
guarded by a size comparison). -/
def left_pad (s : List Char) (n : Nat) : List Char :=
  List.replicate (n - s.length) '0' ++ s

/-- The digit-wise addition loop of `add_abs`, runnning over the two
equal-length digit strings from the last index down to index 0; here the
lists are least-significant-digit first (reversed) and the second
component is the outgoing carry. -/
def addLoop : List Char → List Char → Nat → List Char × Nat
  | a :: as, b :: bs, carry =>
    let s := dChar a + dChar b + carry
    let r := addLoop as bs (s / 10)
    (Char.ofNat (48 + s % 10) :: r.1, r.2)
  | _, _, carry => ([], carry)

/-- `add_abs`: add the absolute values; fractional digits first, the carry
flows into the integer digits, a final carry grows the result. -/
def add_abs (a0 b0 : BigDecimal) : BigDecimal :=
  let p := align_frac a0 b0
  let fr := addLoop p.1.fracPart.reverse p.2.fracPart.reverse 0
  let frac := trim_trailing_zeros fr.1.reverse
  let A := left_pad p.1.intPart p.2.intPart.length
  let B := left_pad p.2.intPart p.1.intPart.length
  let ir := addLoop A.reverse B.reverse fr.2
  let s := if ir.2 ≠ 0 then Char.ofNat (48 + ir.2) :: ir.1.reverse else ir.1.reverse
  { sign := 1, intPart := trim_leading_zeros s, fracPart := frac }

/-- The digit-wise subtraction loop of `sub_abs` with an `Int` borrow
(the C++ locals are `int` and may go negative); lists are
least-significant-digit first, the second component the outgoing borrow. -/
def subLoop : List Char → List Char → Int → List Char × Int
  | a :: as, b :: bs, borrow =>
    let da := (a.toNat : Int) - 48 - borrow
    let db := (b.toNat : Int) - 48
    let q : Int × Int := if da < db then (da + 10, 1) else (da, 0)
    let r := subLoop as bs q.2
    (Char.ofNat (48 + (q.1 - db)).toNat :: r.1, r.2)
  | _, _, borrow => ([], borrow)

/-- `sub_abs`: subtract absolute values assuming `|a| >= |b|`; fractional
digits first, the borrow flows into the integer digits, the final borrow is
discarded, and the result is re-normalized. -/
def sub_abs (a0 b0 : BigDecimal) : BigDecimal :=
  let p := align_frac a0 b0
  let fr := subLoop p.1.fracPart.reverse p.2.fracPart.reverse 0
  let frac := trim_trailing_zeros fr.1.reverse
  let A := left_pad p.1.intPart p.2.intPart.length
  let B := left_pad p.2.intPart p.1.intPart.length
  let ir := subLoop A.reverse B.reverse fr.2
  let s := trim_leading_zeros ir.1.reverse
  if s = ['0'] ∧ frac = [] then { sign := 1, intPart := ['0'], fracPart := frac }
  else { sign := 1, intPart := s, fracPart := frac }

/-- `add_signed`: zero shortcut, same signs add magnitudes, opposite signs
subtract the smaller magnitude from the larger. -/
def add_signed (a b : BigDecimal) : BigDecimal :=
  if a.isZero then b
  else if b.isZero then a
  else if a.sign = b.sign then
    let r := add_abs a b
    let r2 := { r with sign := a.sign }
    if r2.isZero then { r2 with sign := 1 } else r2
  else
    let c := cmp_abs a b
    if c = 0 then { sign := 1, intPart := ['0'], fracPart := [] }
    else if c > 0 then
      let r := sub_abs a b
      let r2 := { r with sign := a.sign }
      if r2.isZero then { r2 with sign := 1 } else r2
    else
      let r := sub_abs b a
      let r2 := { r with sign := b.sign }
      if r2.isZero then { r2 with sign := 1 } else r2

/-- `to_string`: canonical zero prints as `"0"`; otherwise an optional
minus sign, the integer digits, and a dot plus fractional digits when the
fractional part is non-empty. -/
def to_string (x : BigDecimal) : List Char :=
  if x.isZero then ['0']
  else
    (if x.sign < 0 then ['-'] else []) ++ x.intPart ++
      (if x.fracPart ≠ [] then '.' :: x.fracPart else [])

/-! ### Semantics

The mathematical value denoted by digit strings and `BigDecimal` records,
the normalization invariant of §3 of the specification, and the literal
grammar of §4.1 stated declaratively.  These are specification-side
definitions used to state the theorems; the executable definitions above
are the embedding of the source.
-/

/-- Value of a most-significant-first digit string. -/
def digitsVal : List Char → Nat
  | [] => 0
  | c :: cs => dChar c * 10 ^ cs.length + digitsVal cs

/-- Value of a least-significant-first digit string (as used by the loops). -/
def lsbVal : List Char → Nat
  | [] => 0
  | c :: cs => dChar c + 10 * lsbVal cs

/-- The magnitude `|v|` as a rational number. -/
def absQ (v : BigDecimal) : ℚ :=
  (digitsVal v.intPart : ℚ) + (digitsVal v.fracPart : ℚ) / 10 ^ v.fracPart.length

/-- The signed value of a `BigDecimal` as a rational number. -/
def valQ (v : BigDecimal) : ℚ := (v.sign : ℚ) * absQ v

/-- The exact mathematical value denoted by a decimal literal token:
optional sign, integer digits before the first dot, fractional digits
after it. -/
def litQ (x : List Char) : ℚ :=
  let p := lit_sign x
  (p.1 : ℚ) *
    ((digitsVal (int_of p.2) : ℚ) +
      (digitsVal (frac_of p.2) : ℚ) / 10 ^ (frac_of p.2).length)

/-- A decimal digit character, as the grammar in the specification uses it. -/
def digitCh (c : Char) : Bool := decide ('0' ≤ c ∧ c ≤ '9')

/-- The literal grammar of the specification: an optional single `+`/`-`
sign, then one-or-more digits, optionally followed by a single `.` and
one-or-more digits. -/
def grammarValid (x : List Char) : Prop :=
  ∃ sgn ds : List Char,
    (sgn = [] ∨ sgn = ['+'] ∨ sgn = ['-']) ∧
    ds ≠ [] ∧ (∀ c ∈ ds, digitCh c = true) ∧
    (x = sgn ++ ds ∨
      ∃ fd : List Char, fd ≠ [] ∧ (∀ c ∈ fd, digitCh c = true) ∧
        x = sgn ++ ds ++ '.' :: fd)

/-- All characters of a string are decimal digits. -/
def NormDigits (s : List Char) : Prop := ∀ c ∈ s, cpp_isdigit c = true

/-- The normalization invariant on `BigDecimal` values: a two-valued sign,
a non-empty all-digit integer part with no leading zero unless it is
exactly `"0"`, an all-digit fractional part with no trailing zero, and a
positive sign on canonical zero. -/
def Normalized (v : BigDecimal) : Prop :=
  (v.sign = 1 ∨ v.sign = -1) ∧
  v.intPart ≠ [] ∧ NormDigits v.intPart ∧
  (v.intPart.head? = some '0' → v.intPart = ['0']) ∧
  NormDigits v.fracPart ∧ v.fracPart.getLast? ≠ some '0' ∧
  ((v.intPart = ['0'] ∧ v.fracPart = []) → v.sign = 1)

instance : DecidablePred Normalized := fun v => by
  unfold Normalized NormDigits
  infer_instance

/-- The canonical zero record. -/
def canonicalZero : BigDecimal := { sign := 1, intPart := ['0'], fracPart := [] }

/-- The magnitude of `v` scaled by `10 ^ L` (an integer for every
`L ≥ v.fracPart.length`); used to compare and add magnitudes over a
common fractional length. -/
def scaled (v : BigDecimal) (L : Nat) : Nat :=
  digitsVal v.intPart * 10 ^ L + digitsVal v.fracPart * 10 ^ (L - v.fracPart.length)

/-! ### Character-level lemmas -/

theorem char_toNat_inj {c d : Char} (h : c.toNat = d.toNat) : c = d :=
  Char.eq_of_val_eq (UInt32.toNat.inj h)

theorem cpp_isdigit_iff {c : Char} :
    cpp_isdigit c = true ↔ 48 ≤ c.toNat ∧ c.toNat ≤ 57 := by
  simp [cpp_isdigit]

theorem dChar_le_nine {c : Char} (h : cpp_isdigit c = true) : dChar c ≤ 9 := by
  rcases cpp_isdigit_iff.mp h with ⟨h1, h2⟩
  unfold dChar
  omega

theorem toNat_eq_of_digit {c : Char} (h : cpp_isdigit c = true) :
    c.toNat = 48 + dChar c := by
  rcases cpp_isdigit_iff.mp h with ⟨h1, h2⟩
  unfold dChar
  omega

theorem char_ofNat_digit {d : Nat} (h : d < 10) :
    (Char.ofNat (48 + d)).toNat = 48 + d ∧ cpp_isdigit (Char.ofNat (48 + d)) = true := by
  interval_cases d <;> exact ⟨by decide, by decide⟩

theorem dChar_ofNat_digit {d : Nat} (h : d < 10) : dChar (Char.ofNat (48 + d)) = d := by
  unfold dChar
  rw [(char_ofNat_digit h).1]
  omega

theorem char_eq_zero_iff {c : Char} : c = '0' ↔ c.toNat = 48 :=
  ⟨fun h => by subst h; rfl, fun h => char_toNat_inj (by rw [h]; rfl)⟩

theorem digitCh_eq_cpp (c : Char) : digitCh c = cpp_isdigit c := by
  simp only [digitCh, cpp_isdigit, decide_eq_decide, Char.le_def, UInt32.le_def]
  exact Iff.rfl

theorem dChar_pos_of_ne_zero {c : Char} (hd : cpp_isdigit c = true) (h : c ≠ '0') :
    1 ≤ dChar c := by
  rcases cpp_isdigit_iff.mp hd with ⟨h1, h2⟩
  have : c.toNat ≠ 48 := fun hc => h (char_eq_zero_iff.mpr hc)
  unfold dChar
  omega

/-! ### Digit-string value lemmas -/

theorem digitsVal_append (u v : List Char) :
    digitsVal (u ++ v) = digitsVal u * 10 ^ v.length + digitsVal v := by
  induction u with
  | nil => simp [digitsVal]
  | cons c cs ih =>
    simp only [List.cons_append, digitsVal, ih, List.append_eq]
    rw [List.length_append, pow_add]
    ring

theorem digitsVal_reverse (s : List Char) : digitsVal s.reverse = lsbVal s := by
  induction s with
  | nil => rfl
  | cons c cs ih =>
    simp only [List.reverse_cons, digitsVal_append, lsbVal, ih, digitsVal,
      List.length_nil, pow_zero, pow_succ]
    simp [digitsVal]
    ring

theorem digitsVal_replicate_zero (k : Nat) :
    digitsVal (List.replicate k '0') = 0 := by
  induction k with
  | zero => rfl
  | succ n ih => simp [List.replicate, digitsVal, ih, dChar]

theorem digitsVal_pad_left (k : Nat) (s : List Char) :
    digitsVal (List.replicate k '0' ++ s) = digitsVal s := by
  rw [digitsVal_append, digitsVal_replicate_zero]
  simp

theorem digitsVal_pad_right (s : List Char) (k : Nat) :
    digitsVal (s ++ List.replicate k '0') = digitsVal s * 10 ^ k := by
  rw [digitsVal_append, digitsVal_replicate_zero]
  simp [List.length_replicate]

theorem digitsVal_lt (s : List Char) (h : NormDigits s) :
    digitsVal s < 10 ^ s.length := by
  induction s with
  | nil => simp [digitsVal]
  | cons c cs ih =>
    have hc : dChar c ≤ 9 := dChar_le_nine (h c (by simp))
    have hcs : digitsVal cs < 10 ^ cs.length := ih (fun x hx => h x (by simp [hx]))
    simp only [digitsVal, List.length_cons, pow_succ]
    nlinarith

theorem digitsVal_ge_of_head_ne_zero {c : Char} {cs : List Char}
    (h : NormDigits (c :: cs)) (hc : c ≠ '0') :
    10 ^ cs.length ≤ digitsVal (c :: cs) := by
  have h1 : 1 ≤ dChar c := dChar_pos_of_ne_zero (h c (by simp)) hc
  simp only [digitsVal]
  have h2 := Nat.mul_le_mul_right (10 ^ cs.length) h1
  omega

/-! ### NormDigits helpers -/

theorem normDigits_of_subset {s t : List Char} (hsub : ∀ c ∈ t, c ∈ s)
    (h : NormDigits s) : NormDigits t :=
  fun c hc => h c (hsub c hc)

theorem normDigits_replicate_zero (k : Nat) : NormDigits (List.replicate k '0') := by
  intro c hc
  rw [List.eq_of_mem_replicate hc]
  decide

theorem normDigits_append {s t : List Char} (hs : NormDigits s) (ht : NormDigits t) :
    NormDigits (s ++ t) := by
  intro c hc
  rcases List.mem_append.mp hc with h | h
  · exact hs c h
  · exact ht c h

/-! ### trim_leading_zeros lemmas -/

theorem trim_leading_val (s : List Char) :
    digitsVal (trim_leading_zeros s) = digitsVal s := by
  induction s with
  | nil => rfl
  | cons c cs ih =>
    cases cs with
    | nil => rfl
    | cons c2 cs2 =>
      by_cases hc : c = '0'
      · simp only [trim_leading_zeros, if_pos hc, ih]
        subst hc
        simp [digitsVal, dChar]
      · simp only [trim_leading_zeros, if_neg hc]

theorem trim_leading_ne_nil {s : List Char} (h : s ≠ []) :
    trim_leading_zeros s ≠ [] := by
  induction s with
  | nil => exact absurd rfl h
  | cons c cs ih =>
    cases cs with
    | nil => simp [trim_leading_zeros]
    | cons c2 cs2 =>
      by_cases hc : c = '0'
      · simp only [trim_leading_zeros, if_pos hc]
        exact ih (by simp)
      · simp only [trim_leading_zeros, if_neg hc]
        simp

theorem trim_leading_head {s : List Char}
    (h : (trim_leading_zeros s).head? = some '0') : trim_leading_zeros s = ['0'] := by
  induction s with
  | nil => simp [trim_leading_zeros] at h
  | cons c cs ih =>
    cases cs with
    | nil =>
      simp only [trim_leading_zeros, List.head?] at h ⊢
      simp at h
      simp [h]
    | cons c2 cs2 =>
      by_cases hc : c = '0'
      · simp only [trim_leading_zeros, if_pos hc] at h ⊢
        exact ih h
      · simp only [trim_leading_zeros, if_neg hc] at h ⊢
        simp at h
        exact absurd h hc

theorem trim_leading_mem {s : List Char} :
    ∀ c ∈ trim_leading_zeros s, c ∈ s := by
  induction s with
  | nil => simp [trim_leading_zeros]
  | cons c cs ih =>
    cases cs with
    | nil => simp [trim_leading_zeros]
    | cons c2 cs2 =>
      by_cases hc : c = '0'
      · simp only [trim_leading_zeros, if_pos hc]
        intro x hx
        exact List.mem_cons_of_mem c (ih x hx)
      · simp only [trim_leading_zeros, if_neg hc]
        intro x hx
        exact hx

theorem trim_leading_id {s : List Char}
    (h : s = ['0'] ∨ s.head? ≠ some '0') : trim_leading_zeros s = s := by
  rcases h with h | h
  · subst h; rfl
  · cases s with
    | nil => rfl
    | cons c cs =>
      cases cs with
      | nil => rfl
      | cons c2 cs2 =>
        have hc : c ≠ '0' := by
          intro hc0
          exact h (by simp [hc0])
        simp only [trim_leading_zeros, if_neg hc]

/-! ### trim_trailing_zeros lemmas -/

theorem trim_trailing_decomp (s : List Char) :
    ∃ k, s = trim_trailing_zeros s ++ List.replicate k '0' := by
  refine ⟨(s.reverse.takeWhile fun c => c == '0').length, ?_⟩
  have hsplit := List.takeWhile_append_dropWhile (fun c => c == '0') s.reverse
  have hrep : (s.reverse.takeWhile fun c => c == '0').reverse =
      List.replicate (s.reverse.takeWhile fun c => c == '0').length '0' := by
    rw [List.eq_replicate_iff]
    refine ⟨by simp, ?_⟩
    intro b hb
    have hb2 := List.mem_takeWhile_imp (List.mem_reverse.mp hb)
    simpa using hb2
  calc s = s.reverse.reverse := (List.reverse_reverse s).symm
    _ = ((s.reverse.takeWhile fun c => c == '0') ++
          (s.reverse.dropWhile fun c => c == '0')).reverse := by rw [hsplit]
    _ = trim_trailing_zeros s ++ (s.reverse.takeWhile fun c => c == '0').reverse := by
        rw [List.reverse_append]; rfl
    _ = _ := by rw [hrep]

theorem trim_trailing_getLast (s : List Char) :
    (trim_trailing_zeros s).getLast? ≠ some '0' := by
  have h1 : (trim_trailing_zeros s).getLast? =
      (s.reverse.dropWhile fun c => c == '0').head? := by
    rw [← List.head?_reverse]
    simp [trim_trailing_zeros]
  rw [h1]
  have h2 := List.head?_dropWhile_not (fun c => c == '0') s.reverse
  cases hh : (s.reverse.dropWhile fun c => c == '0').head? with
  | none => simp
  | some x =>
    rw [hh] at h2
    simp only at h2
    intro hx
    have : x = '0' := by injection hx
    subst this
    simp at h2

theorem trim_trailing_mem {s : List Char} :
    ∀ c ∈ trim_trailing_zeros s, c ∈ s := by
  intro c hc
  unfold trim_trailing_zeros at hc
  rw [List.mem_reverse] at hc
  have := (List.dropWhile_sublist (l := s.reverse) (fun c => c == '0')).mem hc
  exact List.mem_reverse.mp this

theorem trim_trailing_id {s : List Char} (h : s.getLast? ≠ some '0') :
    trim_trailing_zeros s = s := by
  unfold trim_trailing_zeros
  rw [← List.head?_reverse] at h
  cases hrev : s.reverse with
  | nil =>
    have : s = [] := by simpa using congrArg List.reverse hrev
    simp [hrev, this]
  | cons c cs =>
    rw [hrev] at h
    have hc : (c == '0') = false := by
      simp only [List.head?] at h
      simp only [beq_eq_false_iff_ne]
      intro hc0
      exact h (by rw [hc0])
    rw [List.dropWhile_cons_of_neg (by simp [hc]), ← hrev, List.reverse_reverse]

theorem trim_trailing_val_q (f : List Char) :
    (digitsVal (trim_trailing_zeros f) : ℚ) / 10 ^ (trim_trailing_zeros f).length =
      (digitsVal f : ℚ) / 10 ^ f.length := by
  obtain ⟨k, hk⟩ := trim_trailing_decomp f
  conv_rhs => rw [hk]
  rw [digitsVal_pad_right]
  have hlen : (trim_trailing_zeros f ++ List.replicate k '0').length =
      (trim_trailing_zeros f).length + k := by simp
  rw [hlen, pow_add]
  push_cast
  have h10 : (10 : ℚ) ^ (trim_trailing_zeros f).length ≠ 0 := by positivity
  have h10k : (10 : ℚ) ^ k ≠ 0 := by positivity
  field_simp
  ring

/-! ### left_pad lemmas -/

theorem left_pad_length (s : List Char) (n : Nat) :
    (left_pad s n).length = max n s.length := by
  simp [left_pad]
  omega

theorem left_pad_val (s : List Char) (n : Nat) :
    digitsVal (left_pad s n) = digitsVal s := digitsVal_pad_left _ _

theorem left_pad_norm {s : List Char} (h : NormDigits s) (n : Nat) :
    NormDigits (left_pad s n) :=
  normDigits_append (normDigits_replicate_zero _) h

theorem lsbVal_lt (s : List Char) (h : NormDigits s) : lsbVal s < 10 ^ s.length := by
  rw [← digitsVal_reverse]
  have := digitsVal_lt s.reverse (fun c hc => h c (List.mem_reverse.mp hc))
  simpa using this

/-! ### Digit-loop correctness -/

theorem addLoop_nil (c : Nat) : addLoop [] [] c = ([], c) := rfl

theorem addLoop_cons (a b : Char) (as bs : List Char) (c : Nat) :
    addLoop (a :: as) (b :: bs) c =
      (Char.ofNat (48 + (dChar a + dChar b + c) % 10) ::
        (addLoop as bs ((dChar a + dChar b + c) / 10)).1,
       (addLoop as bs ((dChar a + dChar b + c) / 10)).2) := rfl

theorem subLoop_nil (bo : Int) : subLoop [] [] bo = ([], bo) := rfl

theorem subLoop_cons (a b : Char) (as bs : List Char) (bo : Int) :
    subLoop (a :: as) (b :: bs) bo =
      (Char.ofNat (48 +
          ((if (a.toNat : Int) - 48 - bo < (b.toNat : Int) - 48
              then ((a.toNat : Int) - 48 - bo + 10, (1 : Int))
              else ((a.toNat : Int) - 48 - bo, 0)).1 - ((b.toNat : Int) - 48))).toNat ::
        (subLoop as bs
          (if (a.toNat : Int) - 48 - bo < (b.toNat : Int) - 48
              then ((a.toNat : Int) - 48 - bo + 10, (1 : Int))
              else ((a.toNat : Int) - 48 - bo, 0)).2).1,
       (subLoop as bs
          (if (a.toNat : Int) - 48 - bo < (b.toNat : Int) - 48
              then ((a.toNat : Int) - 48 - bo + 10, (1 : Int))
              else ((a.toNat : Int) - 48 - bo, 0)).2).2) := rfl

theorem addLoop_spec (as : List Char) : ∀ (bs : List Char) (c : Nat),
    as.length = bs.length → NormDigits as → NormDigits bs →
    (addLoop as bs c).1.length = as.length ∧
    NormDigits (addLoop as bs c).1 ∧
    lsbVal (addLoop as bs c).1 + 10 ^ as.length * (addLoop as bs c).2 =
      lsbVal as + lsbVal bs + c ∧
    (c ≤ 1 → (addLoop as bs c).2 ≤ 1) := by
  induction as with
  | nil =>
    intro bs c hlen _ _
    have hbs : bs = [] := List.eq_nil_of_length_eq_zero hlen.symm
    subst hbs
    refine ⟨rfl, fun x hx => absurd hx (List.not_mem_nil x), by simp [addLoop_nil, lsbVal],
      fun h => h⟩
  | cons a as ih =>
    intro bs c hlen ha hb
    cases bs with
    | nil => simp at hlen
    | cons b bs =>
      have hlen2 : as.length = bs.length := by simpa using hlen
      have haa : cpp_isdigit a = true := ha a (by simp)
      have hbb : cpp_isdigit b = true := hb b (by simp)
      have hta : NormDigits as := fun x hx => ha x (by simp [hx])
      have htb : NormDigits bs := fun x hx => hb x (by simp [hx])
      rw [addLoop_cons]
      set s := dChar a + dChar b + c with hs
      obtain ⟨ihlen, ihdig, ihval, ihcar⟩ := ih bs (s / 10) hlen2 hta htb
      have hmod : s % 10 < 10 := Nat.mod_lt _ (by norm_num)
      have hchar := char_ofNat_digit hmod
      refine ⟨by simp [ihlen], ?_, ?_, ?_⟩
      · intro x hx
        rcases List.mem_cons.mp hx with h | h
        · rw [h]; exact hchar.2
        · exact ihdig x h
      · have hd : dChar (Char.ofNat (48 + s % 10)) = s % 10 := dChar_ofNat_digit hmod
        simp only [lsbVal, hd, List.length_cons, pow_succ]
        have expand : 10 ^ as.length * 10 * (addLoop as bs (s / 10)).2 =
            10 * (10 ^ as.length * (addLoop as bs (s / 10)).2) := by ring
        rw [expand]
        generalize hq : 10 ^ as.length * (addLoop as bs (s / 10)).2 = Q at ihval
        omega
      · intro hc
        have h9a : dChar a ≤ 9 := dChar_le_nine haa
        have h9b : dChar b ≤ 9 := dChar_le_nine hbb
        exact ihcar (by omega)

theorem subLoop_spec (as : List Char) : ∀ (bs : List Char) (bo : Int),
    as.length = bs.length → NormDigits as → NormDigits bs → (bo = 0 ∨ bo = 1) →
    (subLoop as bs bo).1.length = as.length ∧
    NormDigits (subLoop as bs bo).1 ∧
    ((lsbVal (subLoop as bs bo).1 : Int) =
      (lsbVal as : Int) - lsbVal bs - bo + 10 ^ as.length * (subLoop as bs bo).2) ∧
    ((subLoop as bs bo).2 = 0 ∨ (subLoop as bs bo).2 = 1) := by
  induction as with
  | nil =>
    intro bs bo hlen _ _ hbo
    have hbs : bs = [] := List.eq_nil_of_length_eq_zero hlen.symm
    subst hbs
    refine ⟨rfl, fun x hx => absurd hx (List.not_mem_nil x), by simp [subLoop_nil, lsbVal],
      hbo⟩
  | cons a as ih =>
    intro bs bo hlen ha hb hbo
    cases bs with
    | nil => simp at hlen
    | cons b bs =>
      have hlen2 : as.length = bs.length := by simpa using hlen
      have haa : cpp_isdigit a = true := ha a (by simp)
      have hbb : cpp_isdigit b = true := hb b (by simp)
      have hta : NormDigits as := fun x hx => ha x (by simp [hx])
      have htb : NormDigits bs := fun x hx => hb x (by simp [hx])
      have hna : (a.toNat : Int) = 48 + dChar a := by
        have := toNat_eq_of_digit haa; exact_mod_cast congrArg (Nat.cast : Nat → Int) this
      have hnb : (b.toNat : Int) = 48 + dChar b := by
        have := toNat_eq_of_digit hbb; exact_mod_cast congrArg (Nat.cast : Nat → Int) this
      have h9a : dChar a ≤ 9 := dChar_le_nine haa
      have h9b : dChar b ≤ 9 := dChar_le_nine hbb
      rw [subLoop_cons]
      set da : Int := (a.toNat : Int) - 48 - bo with hda
      set db : Int := (b.toNat : Int) - 48 with hdb
      set q : Int × Int := if da < db then (da + 10, 1) else (da, 0) with hq
      have hq2 : q.2 = 0 ∨ q.2 = 1 := by
        by_cases hlt : da < db
        · right; simp [hq, hlt]
        · left; simp [hq, hlt]
      obtain ⟨ihlen, ihdig, ihval, ihbo⟩ := ih bs q.2 hlen2 hta htb hq2
      have hd0 : (0 : Int) ≤ q.1 - db ∧ q.1 - db ≤ 9 := by
        by_cases hlt : da < db <;> simp [hq, hlt] <;> omega
      have htn : ((48 : Int) + (q.1 - db)).toNat = 48 + (q.1 - db).toNat := by omega
      have hd9 : (q.1 - db).toNat < 10 := by omega
      have hchar := char_ofNat_digit hd9
      have hdch : dChar (Char.ofNat (48 + (q.1 - db).toNat)) = (q.1 - db).toNat :=
        dChar_ofNat_digit hd9
      refine ⟨by simp [ihlen], ?_, ?_, ihbo⟩
      · intro x hx
        rcases List.mem_cons.mp hx with h | h
        · rw [h, htn]; exact hchar.2
        · exact ihdig x h
      · simp only [lsbVal, htn, hdch, List.length_cons, pow_succ]
        push_cast
        have hcast : ((q.1 - db).toNat : Int) = q.1 - db := by omega
        rw [hcast]
        have hkey : q.1 = da + 10 * q.2 := by
          by_cases hlt : da < db <;> simp [hq, hlt]
        have expand : (10 : Int) ^ as.length * 10 * (subLoop as bs q.2).2 =
            10 * (10 ^ as.length * (subLoop as bs q.2).2) := by ring
        rw [expand]
        generalize hQ : (10 : Int) ^ as.length * (subLoop as bs q.2).2 = Q at ihval ⊢
        omega

/-! ### Lexicographic comparison -/

theorem lex_step {dA dB vA vB P : Nat} (hA : vA < P) (h : dA < dB) :
    dA * P + vA < dB * P + vB := by
  have h2 : (dA + 1) * P ≤ dB * P := Nat.mul_le_mul_right _ h
  rw [Nat.succ_mul] at h2
  omega

theorem str_lt_cons (a b : Char) (as bs : List Char) :
    str_lt (a :: as) (b :: bs) =
      (if a.toNat < b.toNat then true
       else if b.toNat < a.toNat then false
       else str_lt as bs) := rfl

theorem str_lt_iff (as : List Char) : ∀ bs : List Char, as.length = bs.length →
    NormDigits as → NormDigits bs →
    (str_lt as bs = true ↔ digitsVal as < digitsVal bs) ∧
    (as = bs ↔ digitsVal as = digitsVal bs) := by
  induction as with
  | nil =>
    intro bs hlen _ _
    have hbs : bs = [] := List.eq_nil_of_length_eq_zero hlen.symm
    subst hbs
    exact ⟨by simp [str_lt, digitsVal], by simp [digitsVal]⟩
  | cons a as ih =>
    intro bs hlen ha hb
    cases bs with
    | nil => simp at hlen
    | cons b bs =>
      have hlen2 : as.length = bs.length := by simpa using hlen
      have haa : cpp_isdigit a = true := ha a (by simp)
      have hbb : cpp_isdigit b = true := hb b (by simp)
      have hta : NormDigits as := fun x hx => ha x (by simp [hx])
      have htb : NormDigits bs := fun x hx => hb x (by simp [hx])
      obtain ⟨ih1, ih2⟩ := ih bs hlen2 hta htb
      have hva : digitsVal as < 10 ^ bs.length := hlen2 ▸ digitsVal_lt as hta
      have hvb : digitsVal bs < 10 ^ bs.length := digitsVal_lt bs htb
      have hna := toNat_eq_of_digit haa
      have hnb := toNat_eq_of_digit hbb
      rw [str_lt_cons]
      simp only [digitsVal, hlen2]
      rcases Nat.lt_trichotomy a.toNat b.toNat with hc | hc | hc
      · have hd : dChar a < dChar b := by omega
        have hlt := @lex_step (dChar a) (dChar b) (digitsVal as) (digitsVal bs) (10 ^ bs.length) hva hd
        constructor
        · simp only [if_pos hc]
          simpa using hlt
        · constructor
          · intro he
            have : a = b := by injection he
            exact absurd (congrArg Char.toNat this) (by omega)
          · intro he
            omega
      · have hab : a = b := char_toNat_inj hc
        have hd : dChar a = dChar b := by unfold dChar; omega
        have hif : ¬ a.toNat < b.toNat := by omega
        constructor
        · simp only [if_neg hif, if_neg (by omega : ¬ b.toNat < a.toNat)]
          rw [ih1, hd]
          omega
        · subst hab
          constructor
          · intro he
            have : as = bs := by injection he
            rw [ih2.mp this]
          · intro he
            have : digitsVal as = digitsVal bs := by omega
            rw [ih2.mpr this]
      · have hd : dChar b < dChar a := by omega
        have hlt := @lex_step (dChar b) (dChar a) (digitsVal bs) (digitsVal as) (10 ^ bs.length) hvb hd
        constructor
        · simp only [if_neg (by omega : ¬ a.toNat < b.toNat), if_pos hc]
          constructor
          · intro h
            exact absurd h (by simp)
          · intro h
            omega
        · constructor
          · intro he
            have : a = b := by injection he
            exact absurd (congrArg Char.toNat this) (by omega)
          · intro he
            omega

theorem int_val_lt_of_len_lt {s t : List Char} (hs : NormDigits s) (ht : NormDigits t)
    (htne : t ≠ []) (hthead : t.head? = some '0' → t = ['0'])
    (hsne : s ≠ []) (h : s.length < t.length) : digitsVal s < digitsVal t := by
  cases t with
  | nil => exact absurd rfl htne
  | cons c cs =>
    have hc : c ≠ '0' := by
      intro hc0
      have h01 := hthead (by simp [hc0])
      have hl : cs = [] := by injection h01
      subst hl
      apply hsne
      simpa using h
    have h1 : digitsVal s < 10 ^ s.length := digitsVal_lt s hs
    have h2 : 10 ^ cs.length ≤ digitsVal (c :: cs) := digitsVal_ge_of_head_ne_zero ht hc
    have h3 : 10 ^ s.length ≤ 10 ^ cs.length := by
      apply Nat.pow_le_pow_right (by norm_num)
      simpa using Nat.lt_succ_iff.mp (by simpa using h)
    omega

/-! ### Alignment and scaled magnitudes -/

theorem align_fst_int (a b : BigDecimal) : (align_frac a b).1.intPart = a.intPart := rfl

theorem align_snd_int (a b : BigDecimal) : (align_frac a b).2.intPart = b.intPart := rfl

theorem align_fst_frac (a b : BigDecimal) :
    (align_frac a b).1.fracPart = a.fracPart ++
      List.replicate (max a.fracPart.length b.fracPart.length - a.fracPart.length) '0' := rfl

theorem align_snd_frac (a b : BigDecimal) :
    (align_frac a b).2.fracPart = b.fracPart ++
      List.replicate (max a.fracPart.length b.fracPart.length - b.fracPart.length) '0' := rfl

theorem absQ_mul_scaled (v : BigDecimal) (L : Nat) (h : v.fracPart.length ≤ L) :
    absQ v * 10 ^ L = (scaled v L : ℚ) := by
  obtain ⟨k, hk⟩ : ∃ k, L = v.fracPart.length + k := ⟨L - v.fracPart.length, by omega⟩
  subst hk
  unfold absQ scaled
  rw [Nat.add_sub_cancel_left, pow_add]
  push_cast
  have h10 : (10 : ℚ) ^ v.fracPart.length ≠ 0 := by positivity
  field_simp
  ring

theorem absQ_lt_iff_scaled {a b : BigDecimal} {L : Nat}
    (ha : a.fracPart.length ≤ L) (hb : b.fracPart.length ≤ L) :
    absQ a < absQ b ↔ scaled a L < scaled b L := by
  have h10 : (0 : ℚ) < 10 ^ L := by positivity
  constructor
  · intro h
    have h2 := mul_lt_mul_of_pos_right h h10
    rw [absQ_mul_scaled a L ha, absQ_mul_scaled b L hb] at h2
    exact_mod_cast h2
  · intro h
    have h2 : (scaled a L : ℚ) < scaled b L := by exact_mod_cast h
    rw [← absQ_mul_scaled a L ha, ← absQ_mul_scaled b L hb] at h2
    exact lt_of_mul_lt_mul_right h2 (le_of_lt h10)

theorem absQ_eq_iff_scaled {a b : BigDecimal} {L : Nat}
    (ha : a.fracPart.length ≤ L) (hb : b.fracPart.length ≤ L) :
    absQ a = absQ b ↔ scaled a L = scaled b L := by
  have h10 : (10 : ℚ) ^ L ≠ 0 := by positivity
  constructor
  · intro h
    have h2 : absQ a * 10 ^ L = absQ b * 10 ^ L := by rw [h]
    rw [absQ_mul_scaled a L ha, absQ_mul_scaled b L hb] at h2
    exact_mod_cast h2
  · intro h
    have h2 : (scaled a L : ℚ) = scaled b L := by exact_mod_cast h
    rw [← absQ_mul_scaled a L ha, ← absQ_mul_scaled b L hb] at h2
    exact mul_right_cancel₀ h10 h2

theorem cmp_abs_eq (a b : BigDecimal) :
    cmp_abs a b =
      (if (align_frac a b).1.intPart.length ≠ (align_frac a b).2.intPart.length then
        if (align_frac a b).1.intPart.length < (align_frac a b).2.intPart.length then -1 else 1
      else if (align_frac a b).1.intPart ≠ (align_frac a b).2.intPart then
        if str_lt (align_frac a b).1.intPart (align_frac a b).2.intPart then -1 else 1
      else if (align_frac a b).1.fracPart ≠ (align_frac a b).2.fracPart then
        if str_lt (align_frac a b).1.fracPart (align_frac a b).2.fracPart then -1 else 1
      else 0) := rfl

theorem cmp_abs_spec (a b : BigDecimal) (ha : Normalized a) (hb : Normalized b) :
    (cmp_abs a b = -1 ∧ absQ a < absQ b) ∨
    (cmp_abs a b = 0 ∧ absQ a = absQ b) ∨
    (cmp_abs a b = 1 ∧ absQ b < absQ a) := by
  obtain ⟨hsa, hane, haid, hahd, hafd, half, haz⟩ := ha
  obtain ⟨hsb, hbne, hbid, hbhd, hbfd, hblf, hbz⟩ := hb
  have hla_le : a.fracPart.length ≤ max a.fracPart.length b.fracPart.length := le_max_left _ _
  have hlb_le : b.fracPart.length ≤ max a.fracPart.length b.fracPart.length := le_max_right _ _
  set L := max a.fracPart.length b.fracPart.length with hL
  have hlena : (a.fracPart ++ List.replicate (L - a.fracPart.length) '0').length = L := by
    simp
    omega
  have hlenb : (b.fracPart ++ List.replicate (L - b.fracPart.length) '0').length = L := by
    simp
    omega
  have hdza : NormDigits (a.fracPart ++ List.replicate (L - a.fracPart.length) '0') :=
    normDigits_append hafd (normDigits_replicate_zero _)
  have hdzb : NormDigits (b.fracPart ++ List.replicate (L - b.fracPart.length) '0') :=
    normDigits_append hbfd (normDigits_replicate_zero _)
  have hsca : scaled a L = digitsVal a.intPart * 10 ^ L +
      digitsVal (a.fracPart ++ List.replicate (L - a.fracPart.length) '0') := by
    rw [digitsVal_pad_right]
    rfl
  have hscb : scaled b L = digitsVal b.intPart * 10 ^ L +
      digitsVal (b.fracPart ++ List.replicate (L - b.fracPart.length) '0') := by
    rw [digitsVal_pad_right]
    rfl
  have hfva : digitsVal (a.fracPart ++ List.replicate (L - a.fracPart.length) '0') < 10 ^ L := by
    have := digitsVal_lt _ hdza
    rwa [hlena] at this
  have hfvb : digitsVal (b.fracPart ++ List.replicate (L - b.fracPart.length) '0') < 10 ^ L := by
    have := digitsVal_lt _ hdzb
    rwa [hlenb] at this
  rw [cmp_abs_eq, align_fst_int, align_snd_int, align_fst_frac, align_snd_frac, ← hL]
  by_cases h1 : a.intPart.length ≠ b.intPart.length
  · rw [if_pos h1]
    by_cases h2 : a.intPart.length < b.intPart.length
    · rw [if_pos h2]
      left
      refine ⟨rfl, (absQ_lt_iff_scaled hla_le hlb_le).mpr ?_⟩
      rw [hsca, hscb]
      exact lex_step hfva (int_val_lt_of_len_lt haid hbid hbne hbhd hane h2)
    · rw [if_neg h2]
      right; right
      refine ⟨rfl, (absQ_lt_iff_scaled hlb_le hla_le).mpr ?_⟩
      rw [hsca, hscb]
      exact lex_step hfvb (int_val_lt_of_len_lt hbid haid hane hahd hbne (by omega))
  · rw [if_neg h1]
    push_neg at h1
    by_cases h2 : a.intPart ≠ b.intPart
    · rw [if_pos h2]
      obtain ⟨hlt_iff, heq_iff⟩ := str_lt_iff a.intPart b.intPart h1 haid hbid
      by_cases h3 : str_lt a.intPart b.intPart
      · rw [if_pos h3]
        left
        refine ⟨rfl, (absQ_lt_iff_scaled hla_le hlb_le).mpr ?_⟩
        rw [hsca, hscb]
        exact lex_step hfva (hlt_iff.mp h3)
      · rw [if_neg h3]
        right; right
        have hv : digitsVal b.intPart < digitsVal a.intPart := by
          have hne : digitsVal a.intPart ≠ digitsVal b.intPart :=
            fun h => h2 (heq_iff.mpr h)
          have hnlt : ¬ digitsVal a.intPart < digitsVal b.intPart :=
            fun hlt => h3 (hlt_iff.mpr hlt)
          omega
        refine ⟨rfl, (absQ_lt_iff_scaled hlb_le hla_le).mpr ?_⟩
        rw [hsca, hscb]
        exact lex_step hfvb hv
    · rw [if_neg h2]
      push_neg at h2
      have hivals : digitsVal a.intPart = digitsVal b.intPart := by rw [h2]
      by_cases h3 : (a.fracPart ++ List.replicate (L - a.fracPart.length) '0') ≠
          (b.fracPart ++ List.replicate (L - b.fracPart.length) '0')
      · rw [if_pos h3]
        obtain ⟨hlt_iff, heq_iff⟩ := str_lt_iff _ _ (hlena.trans hlenb.symm) hdza hdzb
        by_cases h4 : str_lt (a.fracPart ++ List.replicate (L - a.fracPart.length) '0')
            (b.fracPart ++ List.replicate (L - b.fracPart.length) '0')
        · rw [if_pos h4]
          left
          refine ⟨rfl, (absQ_lt_iff_scaled hla_le hlb_le).mpr ?_⟩
          rw [hsca, hscb, hivals]
          have := hlt_iff.mp h4
          omega
        · rw [if_neg h4]
          right; right
          have hv : digitsVal (b.fracPart ++ List.replicate (L - b.fracPart.length) '0') <
              digitsVal (a.fracPart ++ List.replicate (L - a.fracPart.length) '0') := by
            have hne : digitsVal (a.fracPart ++ List.replicate (L - a.fracPart.length) '0') ≠
                digitsVal (b.fracPart ++ List.replicate (L - b.fracPart.length) '0') :=
              fun h => h3 (heq_iff.mpr h)
            have hnlt : ¬ digitsVal (a.fracPart ++ List.replicate (L - a.fracPart.length) '0') <
                digitsVal (b.fracPart ++ List.replicate (L - b.fracPart.length) '0') :=
              fun hlt => h4 (hlt_iff.mpr hlt)
            omega
          refine ⟨rfl, (absQ_lt_iff_scaled hlb_le hla_le).mpr ?_⟩
          rw [hsca, hscb, hivals]
          omega
      · rw [if_neg h3]
        right; left
        push_neg at h3
        refine ⟨rfl, (absQ_eq_iff_scaled hla_le hlb_le).mpr ?_⟩
        rw [hsca, hscb, hivals, h3]

/-! ### Magnitude addition -/

theorem lsbVal_reverse (s : List Char) : lsbVal s.reverse = digitsVal s := by
  rw [← digitsVal_reverse, List.reverse_reverse]

theorem normDigits_reverse {s : List Char} (h : NormDigits s) : NormDigits s.reverse :=
  fun c hc => h c (List.mem_reverse.mp hc)

theorem pad_right_q (f : List Char) (k : Nat) :
    (digitsVal (f ++ List.replicate k '0') : ℚ) / 10 ^ (f ++ List.replicate k '0').length =
      (digitsVal f : ℚ) / 10 ^ f.length := by
  rw [digitsVal_pad_right]
  have hlen : (f ++ List.replicate k '0').length = f.length + k := by simp
  rw [hlen, pow_add]
  push_cast
  have h10 : (10 : ℚ) ^ f.length ≠ 0 := by positivity
  have h10k : (10 : ℚ) ^ k ≠ 0 := by positivity
  field_simp
  ring

theorem absQ_align_fst (a b : BigDecimal) : absQ (align_frac a b).1 = absQ a := by
  unfold absQ
  rw [align_fst_int, align_fst_frac, pad_right_q]

theorem absQ_align_snd (a b : BigDecimal) : absQ (align_frac a b).2 = absQ b := by
  unfold absQ
  rw [align_snd_int, align_snd_frac, pad_right_q]

theorem absQ_le_iff_scaled {a b : BigDecimal} {L : Nat}
    (ha : a.fracPart.length ≤ L) (hb : b.fracPart.length ≤ L) :
    absQ a ≤ absQ b ↔ scaled a L ≤ scaled b L := by
  constructor
  · intro h
    by_contra hc
    push_neg at hc
    exact absurd ((absQ_lt_iff_scaled hb ha).mpr hc) (not_lt.mpr h)
  · intro h
    by_contra hc
    push_neg at hc
    exact absurd ((absQ_lt_iff_scaled hb ha).mp hc) (not_lt.mpr h)

theorem add_abs_spec (a b : BigDecimal) (ha : Normalized a) (hb : Normalized b) :
    Normalized (add_abs a b) ∧ (add_abs a b).sign = 1 ∧
    absQ (add_abs a b) = absQ a + absQ b := by
  obtain ⟨hsa, hane, haid, hahd, hafd, half, haz⟩ := ha
  obtain ⟨hsb, hbne, hbid, hbhd, hbfd, hblf, hbz⟩ := hb
  have hla_le : a.fracPart.length ≤ max a.fracPart.length b.fracPart.length := le_max_left _ _
  have hlb_le : b.fracPart.length ≤ max a.fracPart.length b.fracPart.length := le_max_right _ _
  set L := max a.fracPart.length b.fracPart.length with hL
  -- aligned fractional parts
  have hfa := align_fst_frac a b
  have hfb := align_snd_frac a b
  rw [← hL] at hfa hfb
  have hlena : (align_frac a b).1.fracPart.length = L := by
    rw [hfa]; simp; omega
  have hlenb : (align_frac a b).2.fracPart.length = L := by
    rw [hfb]; simp; omega
  have hdza : NormDigits (align_frac a b).1.fracPart := by
    rw [hfa]; exact normDigits_append hafd (normDigits_replicate_zero _)
  have hdzb : NormDigits (align_frac a b).2.fracPart := by
    rw [hfb]; exact normDigits_append hbfd (normDigits_replicate_zero _)
  -- the fractional digit loop
  obtain ⟨hflen, hfdig, hfval, hfcar⟩ :=
    addLoop_spec (align_frac a b).1.fracPart.reverse (align_frac a b).2.fracPart.reverse 0
      (by simp [hlena, hlenb]) (normDigits_reverse hdza) (normDigits_reverse hdzb)
  set FO := addLoop (align_frac a b).1.fracPart.reverse (align_frac a b).2.fracPart.reverse 0
    with hFO
  rw [lsbVal_reverse, lsbVal_reverse] at hfval
  rw [List.length_reverse, hlena] at hfval hflen
  have hc1 : FO.2 ≤ 1 := hfcar (by norm_num)
  -- the integer digit loop
  have hAlen : (left_pad a.intPart b.intPart.length).length =
      max b.intPart.length a.intPart.length := left_pad_length _ _
  have hBlen : (left_pad b.intPart a.intPart.length).length =
      max a.intPart.length b.intPart.length := left_pad_length _ _
  obtain ⟨hilen, hidig, hival, hicar⟩ :=
    addLoop_spec (left_pad a.intPart b.intPart.length).reverse
      (left_pad b.intPart a.intPart.length).reverse FO.2
      (by simp [hAlen, hBlen]; omega)
      (normDigits_reverse (left_pad_norm haid _))
      (normDigits_reverse (left_pad_norm hbid _))
  set IR := addLoop (left_pad a.intPart b.intPart.length).reverse
    (left_pad b.intPart a.intPart.length).reverse FO.2 with hIR
  rw [lsbVal_reverse, lsbVal_reverse, left_pad_val, left_pad_val] at hival
  rw [List.length_reverse, hAlen] at hival hilen
  have hc2 : IR.2 ≤ 1 := hicar hc1
  set M := max b.intPart.length a.intPart.length with hM
  -- the computed record
  have hres : add_abs a b =
      { sign := 1,
        intPart := trim_leading_zeros
          (if IR.2 ≠ 0 then Char.ofNat (48 + IR.2) :: IR.1.reverse else IR.1.reverse),
        fracPart := trim_trailing_zeros FO.1.reverse } := rfl
  set S : List Char :=
    if IR.2 ≠ 0 then Char.ofNat (48 + IR.2) :: IR.1.reverse else IR.1.reverse with hS
  -- properties of the raw integer digit string S
  have hSdig : NormDigits S := by
    rw [hS]
    by_cases h0 : IR.2 ≠ 0
    · rw [if_pos h0]
      intro x hx
      rcases List.mem_cons.mp hx with h | h
      · have h2 : IR.2 < 10 := by omega
        rw [h]
        exact (char_ofNat_digit h2).2
      · exact normDigits_reverse hidig x h
    · rw [if_neg h0]
      exact normDigits_reverse hidig
  have hSne : S ≠ [] := by
    rw [hS]
    by_cases h0 : IR.2 ≠ 0
    · rw [if_pos h0]; simp
    · rw [if_neg h0]
      intro hnil
      have : IR.1.reverse.length = 0 := by rw [hnil]; rfl
      rw [List.length_reverse, hilen] at this
      have : a.intPart.length = 0 := by omega
      exact hane (List.eq_nil_of_length_eq_zero this)
  have hSval : digitsVal S = digitsVal a.intPart + digitsVal b.intPart + FO.2 := by
    rw [hS]
    by_cases h0 : IR.2 ≠ 0
    · rw [if_pos h0]
      have h2 : IR.2 < 10 := by omega
      simp only [digitsVal, dChar_ofNat_digit h2, List.length_reverse, hilen,
        digitsVal_reverse]
      rw [Nat.mul_comm]
      omega
    · rw [if_neg h0]
      push_neg at h0
      rw [digitsVal_reverse]
      rw [h0, Nat.mul_zero, Nat.add_zero] at hival
      exact hival
  -- assembling
  rw [hres]
  refine ⟨?_, rfl, ?_⟩
  · exact ⟨Or.inl rfl, trim_leading_ne_nil hSne,
      normDigits_of_subset trim_leading_mem hSdig,
      fun h => trim_leading_head h,
      normDigits_of_subset trim_trailing_mem (normDigits_reverse hfdig),
      trim_trailing_getLast _,
      fun _ => rfl⟩
  · show (digitsVal (trim_leading_zeros S) : ℚ) +
        (digitsVal (trim_trailing_zeros FO.1.reverse) : ℚ) /
          10 ^ (trim_trailing_zeros FO.1.reverse).length = absQ a + absQ b
    rw [trim_leading_val, hSval, trim_trailing_val_q, List.length_reverse, hflen,
      digitsVal_reverse]
    have habsa : absQ a = (digitsVal a.intPart : ℚ) +
        (digitsVal (align_frac a b).1.fracPart : ℚ) / 10 ^ L := by
      rw [← absQ_align_fst a b]
      unfold absQ
      rw [align_fst_int, hlena]
    have habsb : absQ b = (digitsVal b.intPart : ℚ) +
        (digitsVal (align_frac a b).2.fracPart : ℚ) / 10 ^ L := by
      rw [← absQ_align_snd a b]
      unfold absQ
      rw [align_snd_int, hlenb]
    rw [habsa, habsb]
    have hfq : (lsbVal FO.1 : ℚ) + 10 ^ L * FO.2 =
        (digitsVal (align_frac a b).1.fracPart : ℚ) +
          (digitsVal (align_frac a b).2.fracPart : ℚ) := by
      exact_mod_cast congrArg (Nat.cast : Nat → ℚ) (by omega : lsbVal FO.1 + 10 ^ L * FO.2 =
        digitsVal (align_frac a b).1.fracPart + digitsVal (align_frac a b).2.fracPart)
    have h10 : (10 : ℚ) ^ L ≠ 0 := by positivity
    push_cast
    field_simp
    linear_combination hfq

/-! ### Magnitude subtraction -/

theorem le_of_scaled_le {ia ib fa fb P : Nat} (hfa : fa < P)
    (h : ib * P + fb ≤ ia * P + fa) : ib ≤ ia := by
  by_contra hc
  push_neg at hc
  exact absurd (lex_step hfa hc) (not_lt.mpr h)

theorem lt_of_scaled_le {ia ib fa fb P : Nat} (hfa : fa < P)
    (h : ib * P + fb ≤ ia * P + fa) (hff : fa < fb) : ib < ia := by
  rcases Nat.lt_trichotomy ia ib with hc | hc | hc
  · exact absurd (lex_step hfa hc) (not_lt.mpr h)
  · rw [hc] at h
    omega
  · exact hc

theorem sub_abs_spec (a b : BigDecimal) (ha : Normalized a) (hb : Normalized b)
    (hle : absQ b ≤ absQ a) :
    Normalized (sub_abs a b) ∧ (sub_abs a b).sign = 1 ∧
    absQ (sub_abs a b) = absQ a - absQ b := by
  obtain ⟨hsa, hane, haid, hahd, hafd, half, haz⟩ := ha
  obtain ⟨hsb, hbne, hbid, hbhd, hbfd, hblf, hbz⟩ := hb
  have hla_le : a.fracPart.length ≤ max a.fracPart.length b.fracPart.length := le_max_left _ _
  have hlb_le : b.fracPart.length ≤ max a.fracPart.length b.fracPart.length := le_max_right _ _
  set L := max a.fracPart.length b.fracPart.length with hL
  have hfa := align_fst_frac a b
  have hfb := align_snd_frac a b
  rw [← hL] at hfa hfb
  have hlena : (align_frac a b).1.fracPart.length = L := by
    rw [hfa]; simp; omega
  have hlenb : (align_frac a b).2.fracPart.length = L := by
    rw [hfb]; simp; omega
  have hdza : NormDigits (align_frac a b).1.fracPart := by
    rw [hfa]; exact normDigits_append hafd (normDigits_replicate_zero _)
  have hdzb : NormDigits (align_frac a b).2.fracPart := by
    rw [hfb]; exact normDigits_append hbfd (normDigits_replicate_zero _)
  obtain ⟨hflen, hfdig, hfval, hfbo⟩ :=
    subLoop_spec (align_frac a b).1.fracPart.reverse (align_frac a b).2.fracPart.reverse 0
      (by simp [hlena, hlenb]) (normDigits_reverse hdza) (normDigits_reverse hdzb)
      (Or.inl rfl)
  set FO := subLoop (align_frac a b).1.fracPart.reverse (align_frac a b).2.fracPart.reverse 0
    with hFO
  rw [lsbVal_reverse, lsbVal_reverse] at hfval
  rw [List.length_reverse, hlena] at hfval hflen
  have hAlen : (left_pad a.intPart b.intPart.length).length =
      max b.intPart.length a.intPart.length := left_pad_length _ _
  have hBlen : (left_pad b.intPart a.intPart.length).length =
      max a.intPart.length b.intPart.length := left_pad_length _ _
  obtain ⟨hilen, hidig, hival, hibo⟩ :=
    subLoop_spec (left_pad a.intPart b.intPart.length).reverse
      (left_pad b.intPart a.intPart.length).reverse FO.2
      (by simp [hAlen, hBlen]; omega)
      (normDigits_reverse (left_pad_norm haid _))
      (normDigits_reverse (left_pad_norm hbid _)) hfbo
  set IR := subLoop (left_pad a.intPart b.intPart.length).reverse
    (left_pad b.intPart a.intPart.length).reverse FO.2 with hIR
  rw [lsbVal_reverse, lsbVal_reverse, left_pad_val, left_pad_val] at hival
  rw [List.length_reverse, hAlen] at hival hilen
  set M := max b.intPart.length a.intPart.length with hM
  -- value bounds
  have hFAlt : digitsVal (align_frac a b).1.fracPart < 10 ^ L := by
    have := digitsVal_lt _ hdza
    rwa [hlena] at this
  have hFBlt : digitsVal (align_frac a b).2.fracPart < 10 ^ L := by
    have := digitsVal_lt _ hdzb
    rwa [hlenb] at this
  have hFOlt : digitsVal FO.1.reverse < 10 ^ L := by
    have := digitsVal_lt FO.1.reverse (normDigits_reverse hfdig)
    rwa [List.length_reverse, hflen] at this
  have hIRlt : digitsVal IR.1.reverse < 10 ^ M := by
    have := digitsVal_lt IR.1.reverse (normDigits_reverse hidig)
    rwa [List.length_reverse, hilen] at this
  rw [digitsVal_reverse] at hFOlt hIRlt
  -- the magnitude hypothesis, scaled
  have hscaled : scaled b L ≤ scaled a L := (absQ_le_iff_scaled hlb_le hla_le).mp hle
  have hsca : scaled a L = digitsVal a.intPart * 10 ^ L +
      digitsVal (align_frac a b).1.fracPart := by
    unfold scaled
    rw [hfa, digitsVal_pad_right]
  have hscb : scaled b L = digitsVal b.intPart * 10 ^ L +
      digitsVal (align_frac a b).2.fracPart := by
    unfold scaled
    rw [hfb, digitsVal_pad_right]
  rw [hsca, hscb] at hscaled
  -- the integer borrow-in is compensated: no final borrow
  have hIAB : (digitsVal b.intPart : Int) + FO.2 ≤ digitsVal a.intPart := by
    rcases hfbo with h1 | h1
    · have hble : digitsVal b.intPart ≤ digitsVal a.intPart :=
        le_of_scaled_le hFAlt hscaled
      rw [h1]
      omega
    · rw [h1] at hfval
      have hfb_gt : digitsVal (align_frac a b).1.fracPart <
          digitsVal (align_frac a b).2.fracPart := by
        have hlt : (lsbVal FO.1 : Int) < (10 : Int) ^ L := by exact_mod_cast hFOlt
        generalize hgen : (10 : Int) ^ L = P at hfval hlt
        omega
      have hblt : digitsVal b.intPart < digitsVal a.intPart :=
        lt_of_scaled_le hFAlt hscaled hfb_gt
      rw [h1]
      omega
  have hbo2 : IR.2 = 0 := by
    rcases hibo with h2 | h2
    · exact h2
    · exfalso
      rw [h2, mul_one] at hival
      have hlt : (lsbVal IR.1 : Int) < (10 : Int) ^ M := by exact_mod_cast hIRlt
      generalize hgen : (10 : Int) ^ M = P at hival hlt
      omega
  rw [hbo2, mul_zero, add_zero] at hival
  -- the computed record
  have hres : sub_abs a b =
      (if trim_leading_zeros IR.1.reverse = ['0'] ∧ trim_trailing_zeros FO.1.reverse = []
       then { sign := 1, intPart := ['0'], fracPart := trim_trailing_zeros FO.1.reverse }
       else { sign := 1, intPart := trim_leading_zeros IR.1.reverse,
              fracPart := trim_trailing_zeros FO.1.reverse }) := rfl
  have hres2 : sub_abs a b =
      { sign := 1, intPart := trim_leading_zeros IR.1.reverse,
        fracPart := trim_trailing_zeros FO.1.reverse } := by
    by_cases h : trim_leading_zeros IR.1.reverse = ['0'] ∧
        trim_trailing_zeros FO.1.reverse = []
    · rw [hres, if_pos h, h.1]
    · rw [hres, if_neg h]
  have hSne : IR.1.reverse ≠ [] := by
    intro hnil
    have h0 : IR.1.reverse.length = 0 := by rw [hnil]; rfl
    rw [List.length_reverse, hilen] at h0
    have : a.intPart.length = 0 := by omega
    exact hane (List.eq_nil_of_length_eq_zero this)
  rw [hres2]
  refine ⟨?_, rfl, ?_⟩
  · exact ⟨Or.inl rfl, trim_leading_ne_nil hSne,
      normDigits_of_subset trim_leading_mem (normDigits_reverse hidig),
      fun h => trim_leading_head h,
      normDigits_of_subset trim_trailing_mem (normDigits_reverse hfdig),
      trim_trailing_getLast _,
      fun _ => rfl⟩
  · show (digitsVal (trim_leading_zeros IR.1.reverse) : ℚ) +
        (digitsVal (trim_trailing_zeros FO.1.reverse) : ℚ) /
          10 ^ (trim_trailing_zeros FO.1.reverse).length = absQ a - absQ b
    rw [trim_leading_val, trim_trailing_val_q, List.length_reverse, hflen]
    have habsa : absQ a = (digitsVal a.intPart : ℚ) +
        (digitsVal (align_frac a b).1.fracPart : ℚ) / 10 ^ L := by
      rw [← absQ_align_fst a b]
      unfold absQ
      rw [align_fst_int, hlena]
    have habsb : absQ b = (digitsVal b.intPart : ℚ) +
        (digitsVal (align_frac a b).2.fracPart : ℚ) / 10 ^ L := by
      rw [← absQ_align_snd a b]
      unfold absQ
      rw [align_snd_int, hlenb]
    rw [habsa, habsb]
    have hiq : (digitsVal IR.1.reverse : ℚ) =
        (digitsVal a.intPart : ℚ) - digitsVal b.intPart - FO.2 := by
      rw [digitsVal_reverse]
      exact_mod_cast congrArg (Int.cast : Int → ℚ) hival
    have hfq : (digitsVal FO.1.reverse : ℚ) =
        (digitsVal (align_frac a b).1.fracPart : ℚ) -
          digitsVal (align_frac a b).2.fracPart + 10 ^ L * FO.2 := by
      rw [digitsVal_reverse]
      have := congrArg (Int.cast : Int → ℚ) hfval
      push_cast at this ⊢
      linarith
    rw [hiq, hfq]
    have h10 : (10 : ℚ) ^ L ≠ 0 := by positivity
    field_simp
    ring

/-! ### Signed addition -/

theorem isZero_iff (v : BigDecimal) :
    v.isZero = true ↔ (v.intPart = ['0'] ∧ v.fracPart = []) := by
  simp [BigDecimal.isZero]

theorem isZero_set_sign (v : BigDecimal) (s : Int) :
    ({ v with sign := s } : BigDecimal).isZero = v.isZero := rfl

theorem absQ_set_sign (v : BigDecimal) (s : Int) :
    absQ ({ v with sign := s } : BigDecimal) = absQ v := rfl

theorem set_sign_self {v : BigDecimal} (h : v.sign = 1) :
    ({ v with sign := 1 } : BigDecimal) = v := by
  cases v
  simp_all

theorem normalized_zero_eq {v : BigDecimal} (hv : Normalized v) (h : v.isZero = true) :
    v = canonicalZero := by
  obtain ⟨hi, hf⟩ := (isZero_iff v).mp h
  have hs := hv.2.2.2.2.2.2 ⟨hi, hf⟩
  cases v
  simp_all [canonicalZero]

theorem digitsVal_zero_str : digitsVal ['0'] = 0 := rfl

theorem absQ_of_isZero {v : BigDecimal} (h : v.isZero = true) : absQ v = 0 := by
  obtain ⟨hi, hf⟩ := (isZero_iff v).mp h
  unfold absQ
  rw [hi, hf, digitsVal_zero_str]
  norm_num [digitsVal]

theorem valQ_of_isZero {v : BigDecimal} (h : v.isZero = true) : valQ v = 0 := by
  unfold valQ
  rw [absQ_of_isZero h, mul_zero]

theorem normalized_canonicalZero : Normalized canonicalZero := by
  refine ⟨Or.inl rfl, by simp [canonicalZero], ?_, ?_, ?_, ?_, fun _ => rfl⟩
  · intro c hc
    simp [canonicalZero] at hc
    subst hc
    decide
  · intro _
    rfl
  · intro c hc
    simp [canonicalZero] at hc
  · simp [canonicalZero]

theorem valQ_canonicalZero : valQ canonicalZero = 0 :=
  valQ_of_isZero rfl

theorem sign_opp {a b : BigDecimal} (ha : a.sign = 1 ∨ a.sign = -1)
    (hb : b.sign = 1 ∨ b.sign = -1) (h : a.sign ≠ b.sign) : a.sign = -b.sign := by
  rcases ha with h1 | h1 <;> rcases hb with h2 | h2 <;> rw [h1, h2] <;> simp_all [h1, h2]

theorem add_signed_spec (a b : BigDecimal) (ha : Normalized a) (hb : Normalized b) :
    Normalized (add_signed a b) ∧ valQ (add_signed a b) = valQ a + valQ b := by
  by_cases hza : a.isZero = true
  · have haq : valQ a = 0 := valQ_of_isZero hza
    have hres : add_signed a b = b := by
      unfold add_signed
      rw [if_pos hza]
    rw [hres, haq, zero_add]
    exact ⟨hb, rfl⟩
  · by_cases hzb : b.isZero = true
    · have hbq : valQ b = 0 := valQ_of_isZero hzb
      have hres : add_signed a b = a := by
        unfold add_signed
        rw [if_neg hza, if_pos hzb]
      rw [hres, hbq, add_zero]
      exact ⟨ha, rfl⟩
    · by_cases hss : a.sign = b.sign
      · -- same signs: add magnitudes
        obtain ⟨hnr, hsr, hvr⟩ := add_abs_spec a b ha hb
        have hres : add_signed a b =
            (if ({ add_abs a b with sign := a.sign } : BigDecimal).isZero = true
             then { add_abs a b with sign := 1 }
             else { add_abs a b with sign := a.sign }) := by
          unfold add_signed
          rw [if_neg hza, if_neg hzb, if_pos hss]
        by_cases hz : ({ add_abs a b with sign := a.sign } : BigDecimal).isZero = true
        · rw [hres, if_pos hz, set_sign_self hsr]
          refine ⟨hnr, ?_⟩
          rw [isZero_set_sign] at hz
          have h0 : absQ (add_abs a b) = 0 := absQ_of_isZero hz
          rw [h0] at hvr
          unfold valQ
          rw [h0, ← hss]
          have hb0 : absQ b = 0 := by
            have hbn : (0 : ℚ) ≤ absQ b := by
              unfold absQ
              positivity
            have han : (0 : ℚ) ≤ absQ a := by
              unfold absQ
              positivity
            linarith
          have ha0 : absQ a = 0 := by
            have hbn : (0 : ℚ) ≤ absQ b := by
              unfold absQ
              positivity
            have han : (0 : ℚ) ≤ absQ a := by
              unfold absQ
              positivity
            linarith
          rw [ha0, hb0]
          ring
        · rw [hres, if_neg hz]
          constructor
          · refine ⟨ha.1, hnr.2.1, hnr.2.2.1, hnr.2.2.2.1, hnr.2.2.2.2.1,
              hnr.2.2.2.2.2.1, ?_⟩
            intro hzero
            rw [isZero_set_sign] at hz
            exact absurd ((isZero_iff _).mpr hzero) hz
          · show (a.sign : ℚ) * absQ ({ add_abs a b with sign := a.sign } : BigDecimal) =
              valQ a + valQ b
            rw [absQ_set_sign, hvr]
            unfold valQ
            rw [← hss]
            ring
      · -- opposite signs: subtract the smaller magnitude
        have hopp : a.sign = -b.sign := sign_opp ha.1 hb.1 hss
        rcases cmp_abs_spec a b ha hb with ⟨hc, hv⟩ | ⟨hc, hv⟩ | ⟨hc, hv⟩
        · -- |a| < |b|
          obtain ⟨hnr, hsr, hvr⟩ := sub_abs_spec b a hb ha (le_of_lt hv)
          have hres : add_signed a b =
              (if ({ sub_abs b a with sign := b.sign } : BigDecimal).isZero = true
               then { sub_abs b a with sign := 1 }
               else { sub_abs b a with sign := b.sign }) := by
            unfold add_signed
            rw [if_neg hza, if_neg hzb, if_neg hss, hc]
            norm_num
          by_cases hz : ({ sub_abs b a with sign := b.sign } : BigDecimal).isZero = true
          · exfalso
            rw [isZero_set_sign] at hz
            have h0 : absQ (sub_abs b a) = 0 := absQ_of_isZero hz
            rw [hvr] at h0
            linarith
          · rw [hres, if_neg hz]
            constructor
            · refine ⟨hb.1, hnr.2.1, hnr.2.2.1, hnr.2.2.2.1, hnr.2.2.2.2.1,
                hnr.2.2.2.2.2.1, ?_⟩
              intro hzero
              rw [isZero_set_sign] at hz
              exact absurd ((isZero_iff _).mpr hzero) hz
            · show (b.sign : ℚ) * absQ ({ sub_abs b a with sign := b.sign } : BigDecimal) =
                valQ a + valQ b
              rw [absQ_set_sign, hvr]
              unfold valQ
              rw [hopp]
              push_cast
              ring
        · -- equal magnitudes
          have hres : add_signed a b = canonicalZero := by
            unfold add_signed
            rw [if_neg hza, if_neg hzb, if_neg hss, hc]
            norm_num
            rfl
          rw [hres, valQ_canonicalZero]
          refine ⟨normalized_canonicalZero, ?_⟩
          unfold valQ
          rw [hopp, hv]
          push_cast
          ring
        · -- |a| > |b|
          obtain ⟨hnr, hsr, hvr⟩ := sub_abs_spec a b ha hb (le_of_lt hv)
          have hres : add_signed a b =
              (if ({ sub_abs a b with sign := a.sign } : BigDecimal).isZero = true
               then { sub_abs a b with sign := 1 }
               else { sub_abs a b with sign := a.sign }) := by
            unfold add_signed
            rw [if_neg hza, if_neg hzb, if_neg hss, hc]
            norm_num
          by_cases hz : ({ sub_abs a b with sign := a.sign } : BigDecimal).isZero = true
          · exfalso
            rw [isZero_set_sign] at hz
            have h0 : absQ (sub_abs a b) = 0 := absQ_of_isZero hz
            rw [hvr] at h0
            linarith
          · rw [hres, if_neg hz]
            constructor
            · refine ⟨ha.1, hnr.2.1, hnr.2.2.1, hnr.2.2.2.1, hnr.2.2.2.2.1,
                hnr.2.2.2.2.2.1, ?_⟩
              intro hzero
              rw [isZero_set_sign] at hz
              exact absurd ((isZero_iff _).mpr hzero) hz
            · show (a.sign : ℚ) * absQ ({ sub_abs a b with sign := a.sign } : BigDecimal) =
                valQ a + valQ b
              rw [absQ_set_sign, hvr]
              unfold valQ
              rw [hopp]
              push_cast
              ring

/-! ### Validator characterization -/

theorem dropWhile_append_all {p : Char → Bool} {u : List Char} (v : List Char)
    (hu : ∀ c ∈ u, p c = true) :
    (u ++ v).dropWhile p = v.dropWhile p := by
  induction u with
  | nil => rfl
  | cons c cs ih =>
    rw [List.cons_append, List.dropWhile_cons_of_pos (hu c (by simp))]
    exact ih fun x hx => hu x (by simp [hx])

theorem takeWhile_append_all {p : Char → Bool} {u : List Char} (v : List Char)
    (hu : ∀ c ∈ u, p c = true) :
    (u ++ v).takeWhile p = u ++ v.takeWhile p := by
  induction u with
  | nil => rfl
  | cons c cs ih =>
    rw [List.cons_append, List.takeWhile_cons_of_pos (hu c (by simp)), ih
      fun x hx => hu x (by simp [hx]), List.cons_append]

theorem not_digit_dot : cpp_isdigit '.' = false := by decide

theorem not_digit_plus : cpp_isdigit '+' = false := by decide

theorem not_digit_minus : cpp_isdigit '-' = false := by decide

theorem digit_ne_sign {c : Char} (h : cpp_isdigit c = true) : c ≠ '+' ∧ c ≠ '-' := by
  constructor <;> intro he <;> subst he <;> simp [cpp_isdigit] at h

theorem lit_sign_cons (c : Char) (r : List Char) :
    lit_sign (c :: r) =
      (if c = '+' then (1, r) else if c = '-' then (-1, r) else (1, c :: r)) := rfl

theorem valid_rest_cons (d : Char) (ds : List Char) :
    valid_rest (d :: ds) =
      (if ¬ cpp_isdigit d then false
       else
        match ds.dropWhile cpp_isdigit with
        | [] => true
        | e :: es =>
          if e = '.' then
            match es with
            | [] => false
            | f :: fs =>
              if ¬ cpp_isdigit f then false
              else decide (fs.dropWhile cpp_isdigit = [])
          else false) := rfl

theorem valid_eq_rest (x : List Char) :
    is_valid_double_literal x = valid_rest (lit_sign x).2 := by
  cases x with
  | nil => rfl
  | cons c cs =>
    by_cases h1 : c = '+'
    · subst h1; rfl
    · by_cases h2 : c = '-'
      · subst h2; rfl
      · have hns : ¬ (c = '+' ∨ c = '-') := by
          intro h
          rcases h with h | h
          · exact h1 h
          · exact h2 h
        show (match (if c = '+' ∨ c = '-' then cs else c :: cs) with
          | [] => false
          | d :: ds =>
            if ¬ cpp_isdigit d then false
            else
              match ds.dropWhile cpp_isdigit with
              | [] => true
              | e :: es =>
                if e = '.' then
                  match es with
                  | [] => false
                  | f :: fs =>
                    if ¬ cpp_isdigit f then false
                    else decide (fs.dropWhile cpp_isdigit = [])
                else false) = valid_rest (lit_sign (c :: cs)).2
        rw [if_neg hns, lit_sign_cons, if_neg h1, if_neg h2]
        rfl

theorem valid_rest_iff (r : List Char) : valid_rest r = true ↔
    (∃ ds : List Char, ds ≠ [] ∧ NormDigits ds ∧
      (r = ds ∨ ∃ fd : List Char, fd ≠ [] ∧ NormDigits fd ∧ r = ds ++ '.' :: fd)) := by
  constructor
  · intro h
    cases r with
    | nil => simp [valid_rest] at h
    | cons d ds0 =>
      rw [valid_rest_cons] at h
      by_cases hd : cpp_isdigit d = true
      · rw [if_neg (by simp [hd])] at h
        cases hw : ds0.dropWhile cpp_isdigit with
        | nil =>
          refine ⟨d :: ds0, by simp, ?_, Or.inl rfl⟩
          intro c hc
          rcases List.mem_cons.mp hc with hx | hx
          · rw [hx]; exact hd
          · exact List.dropWhile_eq_nil_iff.mp hw c hx
        | cons e es =>
          rw [hw] at h
          cases es with
          | nil =>
            change (if e = '.' then false else false) = true at h
            by_cases he : e = '.' <;> simp [he] at h
          | cons f fs =>
            change (if e = '.' then
                (if ¬ cpp_isdigit f then false
                 else decide (fs.dropWhile cpp_isdigit = []))
              else false) = true at h
            by_cases he : e = '.'
            · rw [if_pos he] at h
              by_cases hf : cpp_isdigit f = true
              · rw [if_neg (by simp [hf])] at h
                have hfs : fs.dropWhile cpp_isdigit = [] := of_decide_eq_true h
                have hsplit := List.takeWhile_append_dropWhile cpp_isdigit ds0
                rw [hw] at hsplit
                refine ⟨d :: ds0.takeWhile cpp_isdigit, by simp, ?_,
                  Or.inr ⟨f :: fs, by simp, ?_, ?_⟩⟩
                · intro c hc
                  rcases List.mem_cons.mp hc with hx | hx
                  · rw [hx]; exact hd
                  · exact List.mem_takeWhile_imp hx
                · intro c hc
                  rcases List.mem_cons.mp hc with hx | hx
                  · rw [hx]; exact hf
                  · exact List.dropWhile_eq_nil_iff.mp hfs c hx
                · rw [he] at hsplit
                  rw [List.cons_append, hsplit]
              · rw [if_pos (by simp [hf])] at h
                simp at h
            · rw [if_neg he] at h
              simp at h
      · rw [if_pos (by simp [hd])] at h
        simp at h
  · rintro ⟨ds, hne, hdig, (hshape | ⟨fd, hfne, hfdig, hshape⟩)⟩
    · rw [hshape]
      cases ds with
      | nil => exact absurd rfl hne
      | cons d dt =>
        rw [valid_rest_cons]
        have hd : cpp_isdigit d = true := hdig d (by simp)
        rw [if_neg (by simp [hd])]
        have hw : dt.dropWhile cpp_isdigit = [] :=
          List.dropWhile_eq_nil_iff.mpr fun c hc => hdig c (by simp [hc])
        rw [hw]
    · rw [hshape]
      cases ds with
      | nil => exact absurd rfl hne
      | cons d dt =>
        rw [List.cons_append, valid_rest_cons]
        have hd : cpp_isdigit d = true := hdig d (by simp)
        rw [if_neg (by simp [hd])]
        have hstep : (dt ++ '.' :: fd).dropWhile cpp_isdigit = '.' :: fd := by
          rw [dropWhile_append_all ('.' :: fd) fun c hc => hdig c (by simp [hc]),
            List.dropWhile_cons_of_neg (by simp [not_digit_dot])]
        rw [hstep]
        cases fd with
        | nil => exact absurd rfl hfne
        | cons f fs =>
          have hf : cpp_isdigit f = true := hfdig f (by simp)
          change (if ('.' : Char) = '.' then
              (if ¬ cpp_isdigit f then false
               else decide (fs.dropWhile cpp_isdigit = []))
            else false) = true
          rw [if_pos rfl, if_neg (by simp [hf])]
          exact decide_eq_true
            (List.dropWhile_eq_nil_iff.mpr fun c hc => hfdig c (by simp [hc]))

theorem grammar_norm (x : List Char) : grammarValid x ↔
    ∃ sgn ds : List Char, (sgn = [] ∨ sgn = ['+'] ∨ sgn = ['-']) ∧ ds ≠ [] ∧
      NormDigits ds ∧
      (x = sgn ++ ds ∨
        ∃ fd : List Char, fd ≠ [] ∧ NormDigits fd ∧ x = sgn ++ ds ++ '.' :: fd) := by
  unfold grammarValid NormDigits
  simp only [digitCh_eq_cpp]

theorem valid_iff_grammar (x : List Char) :
    is_valid_double_literal x = true ↔ grammarValid x := by
  rw [valid_eq_rest, valid_rest_iff, grammar_norm]
  cases x with
  | nil =>
    constructor
    · rintro ⟨ds, hne, _, (hsh | ⟨fd, _, _, hsh⟩)⟩
      · exact absurd hsh.symm hne
      · exact absurd hsh (by simp [lit_sign])
    · rintro ⟨sgn, ds, hsgn, hne, hdig, (hsh | ⟨fd, hfne, hfdig, hsh⟩)⟩
      · exact absurd (List.append_eq_nil.mp hsh.symm).2 hne
      · exact absurd hsh (by simp)
  | cons c cs =>
    by_cases h1 : c = '+'
    · subst h1
      constructor
      · rintro ⟨ds, hne, hdig, (hsh | ⟨fd, hfne, hfdig, hsh⟩)⟩
        · exact ⟨['+'], ds, Or.inr (Or.inl rfl), hne, hdig,
            Or.inl (congrArg (List.cons '+') hsh)⟩
        · exact ⟨['+'], ds, Or.inr (Or.inl rfl), hne, hdig,
            Or.inr ⟨fd, hfne, hfdig, congrArg (List.cons '+') hsh⟩⟩
      · rintro ⟨sgn, ds, hsgn, hne, hdig, hsh⟩
        rcases hsgn with h0 | h0 | h0 <;> subst h0
        · exfalso
          cases ds with
          | nil => exact hne rfl
          | cons d dt =>
            rcases hsh with hsh | ⟨fd, _, _, hsh⟩
            · simp only [List.nil_append] at hsh
              injection hsh with hd _
              have := hdig d (by simp)
              rw [← hd] at this
              exact absurd this (by decide)
            · simp only [List.nil_append, List.cons_append] at hsh
              injection hsh with hd _
              have := hdig d (by simp)
              rw [← hd] at this
              exact absurd this (by decide)
        · rcases hsh with hsh | ⟨fd, hfne, hfdig, hsh⟩
          · simp only [List.cons_append, List.nil_append] at hsh
            injection hsh with _ htl
            exact ⟨ds, hne, hdig, Or.inl htl⟩
          · simp only [List.cons_append, List.nil_append] at hsh
            injection hsh with _ htl
            exact ⟨ds, hne, hdig, Or.inr ⟨fd, hfne, hfdig, htl⟩⟩
        · exfalso
          rcases hsh with hsh | ⟨fd, _, _, hsh⟩ <;>
            simp only [List.cons_append, List.nil_append] at hsh <;>
            · injection hsh with hd _
              exact absurd hd (by decide)
    · by_cases h2 : c = '-'
      · subst h2
        constructor
        · rintro ⟨ds, hne, hdig, (hsh | ⟨fd, hfne, hfdig, hsh⟩)⟩
          · exact ⟨['-'], ds, Or.inr (Or.inr rfl), hne, hdig,
              Or.inl (congrArg (List.cons '-') hsh)⟩
          · exact ⟨['-'], ds, Or.inr (Or.inr rfl), hne, hdig,
              Or.inr ⟨fd, hfne, hfdig, congrArg (List.cons '-') hsh⟩⟩
        · rintro ⟨sgn, ds, hsgn, hne, hdig, hsh⟩
          rcases hsgn with h0 | h0 | h0 <;> subst h0
          · exfalso
            cases ds with
            | nil => exact hne rfl
            | cons d dt =>
              rcases hsh with hsh | ⟨fd, _, _, hsh⟩
              · simp only [List.nil_append] at hsh
                injection hsh with hd _
                have := hdig d (by simp)
                rw [← hd] at this
                exact absurd this (by decide)
              · simp only [List.nil_append, List.cons_append] at hsh
                injection hsh with hd _
                have := hdig d (by simp)
                rw [← hd] at this
                exact absurd this (by decide)
          · exfalso
            rcases hsh with hsh | ⟨fd, _, _, hsh⟩ <;>
              simp only [List.cons_append, List.nil_append] at hsh <;>
              · injection hsh with hd _
                exact absurd hd (by decide)
          · rcases hsh with hsh | ⟨fd, hfne, hfdig, hsh⟩
            · simp only [List.cons_append, List.nil_append] at hsh
              injection hsh with _ htl
              exact ⟨ds, hne, hdig, Or.inl htl⟩
            · simp only [List.cons_append, List.nil_append] at hsh
              injection hsh with _ htl
              exact ⟨ds, hne, hdig, Or.inr ⟨fd, hfne, hfdig, htl⟩⟩
      · have hr : (lit_sign (c :: cs)).2 = c :: cs := by
          rw [lit_sign_cons, if_neg h1, if_neg h2]
        rw [hr]
        constructor
        · rintro ⟨ds, hne, hdig, hsh⟩
          exact ⟨[], ds, Or.inl rfl, hne, hdig, by simpa using hsh⟩
        · rintro ⟨sgn, ds, hsgn, hne, hdig, hsh⟩
          rcases hsgn with h0 | h0 | h0 <;> subst h0
          · exact ⟨ds, hne, hdig, by simpa using hsh⟩
          · exfalso
            rcases hsh with hsh | ⟨fd, _, _, hsh⟩ <;>
              simp only [List.cons_append, List.nil_append] at hsh <;>
              · injection hsh with hd _
                exact absurd hd h1
          · exfalso
            rcases hsh with hsh | ⟨fd, _, _, hsh⟩ <;>
              simp only [List.cons_append, List.nil_append] at hsh <;>
              · injection hsh with hd _
                exact absurd hd h2

/-! ### Parser correctness -/

theorem digits_ne_dot {ds : List Char} (h : NormDigits ds) :
    ∀ c ∈ ds, (c != '.') = true := by
  intro c hc
  have hd := h c hc
  simp only [bne_iff_ne, ne_eq]
  intro he
  subst he
  exact absurd hd (by decide)

theorem int_of_digits {ds : List Char} (h : NormDigits ds) : int_of ds = ds := by
  unfold int_of
  have h2 := takeWhile_append_all (p := fun c => c != '.') [] (digits_ne_dot h)
  simpa using h2

theorem frac_of_digits {ds : List Char} (h : NormDigits ds) : frac_of ds = [] := by
  unfold frac_of
  have h2 := dropWhile_append_all (p := fun c => c != '.') [] (digits_ne_dot h)
  rw [List.append_nil] at h2
  rw [h2]
  rfl

theorem int_of_dotted {ds fd : List Char} (h : NormDigits ds) :
    int_of (ds ++ '.' :: fd) = ds := by
  unfold int_of
  rw [takeWhile_append_all _ (digits_ne_dot h), List.takeWhile_cons_of_neg (by simp)]
  simp

theorem frac_of_dotted {ds fd : List Char} (h : NormDigits ds) :
    frac_of (ds ++ '.' :: fd) = fd := by
  unfold frac_of
  rw [dropWhile_append_all _ (digits_ne_dot h), List.dropWhile_cons_of_neg (by simp)]

theorem lit_sign_cases (x : List Char) : (lit_sign x).1 = 1 ∨ (lit_sign x).1 = -1 := by
  cases x with
  | nil => exact Or.inl rfl
  | cons c cs =>
    rw [lit_sign_cons]
    split_ifs <;> simp

theorem parse_eq (x : List Char) :
    parse_normalize x =
      (if trim_leading_zeros (int_of (lit_sign x).2) = ['0'] ∧
          trim_trailing_zeros (frac_of (lit_sign x).2) = []
       then { sign := 1, intPart := trim_leading_zeros (int_of (lit_sign x).2),
              fracPart := trim_trailing_zeros (frac_of (lit_sign x).2) }
       else { sign := (lit_sign x).1,
              intPart := trim_leading_zeros (int_of (lit_sign x).2),
              fracPart := trim_trailing_zeros (frac_of (lit_sign x).2) }) := rfl

theorem litQ_eq (x : List Char) :
    litQ x = ((lit_sign x).1 : ℚ) *
      ((digitsVal (int_of (lit_sign x).2) : ℚ) +
        (digitsVal (frac_of (lit_sign x).2) : ℚ) / 10 ^ (frac_of (lit_sign x).2).length) :=
  rfl

theorem parse_core {s : Int} {I F : List Char} (hs : s = 1 ∨ s = -1)
    (hIne : I ≠ []) (hIdig : NormDigits I) (hFdig : NormDigits F) :
    Normalized
      (if trim_leading_zeros I = ['0'] ∧ trim_trailing_zeros F = []
       then { sign := 1, intPart := trim_leading_zeros I,
              fracPart := trim_trailing_zeros F }
       else { sign := s, intPart := trim_leading_zeros I,
              fracPart := trim_trailing_zeros F } : BigDecimal) ∧
    valQ
      (if trim_leading_zeros I = ['0'] ∧ trim_trailing_zeros F = []
       then { sign := 1, intPart := trim_leading_zeros I,
              fracPart := trim_trailing_zeros F }
       else { sign := s, intPart := trim_leading_zeros I,
              fracPart := trim_trailing_zeros F } : BigDecimal) =
      (s : ℚ) * ((digitsVal I : ℚ) + (digitsVal F : ℚ) / 10 ^ F.length) := by
  have hIval : digitsVal (trim_leading_zeros I) = digitsVal I := trim_leading_val I
  have hFq : (digitsVal (trim_trailing_zeros F) : ℚ) /
      10 ^ (trim_trailing_zeros F).length = (digitsVal F : ℚ) / 10 ^ F.length :=
    trim_trailing_val_q F
  by_cases hz : trim_leading_zeros I = ['0'] ∧ trim_trailing_zeros F = []
  · rw [if_pos hz]
    constructor
    · rw [hz.1, hz.2]
      exact normalized_canonicalZero
    · have h1 : (digitsVal I : ℚ) = 0 := by
        rw [← hIval, hz.1, digitsVal_zero_str]
        norm_num
      have h2 : (digitsVal F : ℚ) / 10 ^ F.length = 0 := by
        rw [← hFq, hz.2]
        simp [digitsVal]
      show (1 : Int) * ((digitsVal (trim_leading_zeros I) : ℚ) +
          (digitsVal (trim_trailing_zeros F) : ℚ) / 10 ^ (trim_trailing_zeros F).length) =
        (s : ℚ) * ((digitsVal I : ℚ) + (digitsVal F : ℚ) / 10 ^ F.length)
      rw [hFq]
      push_cast [hIval]
      rw [h1, h2]
      ring
  · rw [if_neg hz]
    constructor
    · exact ⟨hs, trim_leading_ne_nil hIne,
        normDigits_of_subset trim_leading_mem hIdig,
        fun h => trim_leading_head h,
        normDigits_of_subset trim_trailing_mem hFdig,
        trim_trailing_getLast _,
        fun hc => absurd hc hz⟩
    · show (s : ℚ) * ((digitsVal (trim_leading_zeros I) : ℚ) +
          (digitsVal (trim_trailing_zeros F) : ℚ) / 10 ^ (trim_trailing_zeros F).length) =
        (s : ℚ) * ((digitsVal I : ℚ) + (digitsVal F : ℚ) / 10 ^ F.length)
      rw [hFq, hIval]

theorem parse_spec (x : List Char) (hv : is_valid_double_literal x = true) :
    Normalized (parse_normalize x) ∧ valQ (parse_normalize x) = litQ x := by
  rw [valid_eq_rest, valid_rest_iff] at hv
  obtain ⟨ds, hne, hdig, hsh⟩ := hv
  have hsgn := lit_sign_cases x
  rcases hsh with hsh | ⟨fd, hfne, hfdig, hsh⟩
  · have hI : int_of (lit_sign x).2 = ds := by rw [hsh]; exact int_of_digits hdig
    have hF : frac_of (lit_sign x).2 = [] := by rw [hsh]; exact frac_of_digits hdig
    rw [parse_eq, litQ_eq, hI, hF]
    exact parse_core hsgn hne hdig (fun c hc => absurd hc (List.not_mem_nil c))
  · have hI : int_of (lit_sign x).2 = ds := by rw [hsh]; exact int_of_dotted hdig
    have hF : frac_of (lit_sign x).2 = fd := by rw [hsh]; exact frac_of_dotted hdig
    rw [parse_eq, litQ_eq, hI, hF]
    exact parse_core hsgn hne hdig hfdig

/-! ### Formatter correctness -/

theorem to_string_zero {v : BigDecimal} (h : v.isZero = true) : to_string v = ['0'] := by
  unfold to_string
  rw [if_pos h]

theorem to_string_nonzero {v : BigDecimal} (h : ¬ v.isZero = true) :
    to_string v = (if v.sign < 0 then ['-'] else []) ++ v.intPart ++
      (if v.fracPart ≠ [] then '.' :: v.fracPart else []) := by
  unfold to_string
  rw [if_neg h]

theorem lit_sign_digit_head {d : Char} {r : List Char} (hd : cpp_isdigit d = true) :
    lit_sign (d :: r) = (1, d :: r) := by
  obtain ⟨h1, h2⟩ := digit_ne_sign hd
  rw [lit_sign_cons, if_neg h1, if_neg h2]

theorem trim_leading_id_of_norm {I : List Char} (_hIdig : NormDigits I)
    (hihead : I.head? = some '0' → I = ['0']) : trim_leading_zeros I = I := by
  apply trim_leading_id
  by_cases hh : I.head? = some '0'
  · exact Or.inl (hihead hh)
  · exact Or.inr hh

theorem to_string_shape {v : BigDecimal} (hv : Normalized v) (hz : ¬ v.isZero = true) :
    lit_sign (to_string v) = (v.sign, v.intPart ++
      (if v.fracPart ≠ [] then '.' :: v.fracPart else [])) ∧
    int_of (v.intPart ++ (if v.fracPart ≠ [] then '.' :: v.fracPart else [])) = v.intPart ∧
    frac_of (v.intPart ++ (if v.fracPart ≠ [] then '.' :: v.fracPart else [])) =
      v.fracPart := by
  obtain ⟨hs, hine, hidig, hihead, hfdig, hflast, hzp⟩ := hv
  have hbody : ∀ t : List Char,
      int_of (v.intPart ++ (if v.fracPart ≠ [] then '.' :: v.fracPart else [])) =
        v.intPart ∧
      frac_of (v.intPart ++ (if v.fracPart ≠ [] then '.' :: v.fracPart else [])) =
        v.fracPart := by
    intro _
    by_cases hf : v.fracPart = []
    · rw [if_neg (by simp [hf])]
      rw [List.append_nil]
      exact ⟨int_of_digits hidig, by rw [frac_of_digits hidig, hf]⟩
    · rw [if_pos hf]
      exact ⟨int_of_dotted hidig, frac_of_dotted hidig⟩
  obtain ⟨hio, hfo⟩ := hbody []
  refine ⟨?_, hio, hfo⟩
  rcases hs with h1 | h1
  · rw [to_string_nonzero hz, h1]
    rw [if_neg (by norm_num)]
    rw [List.nil_append]
    cases hI : v.intPart with
    | nil => exact absurd hI hine
    | cons d dt =>
      have hd : cpp_isdigit d = true := hidig d (by rw [hI]; simp)
      rw [List.cons_append, lit_sign_digit_head hd, ← List.cons_append, ← hI]
  · rw [to_string_nonzero hz, h1]
    rw [if_pos (by norm_num)]
    rw [List.append_assoc, List.singleton_append, lit_sign_cons,
      if_neg (by decide), if_pos rfl]

theorem parse_to_string {v : BigDecimal} (hv : Normalized v) :
    parse_normalize (to_string v) = v := by
  by_cases hz : v.isZero = true
  · rw [to_string_zero hz, normalized_zero_eq hv hz]
    rfl
  · obtain ⟨hio, hfo⟩ := (to_string_shape hv hz).2
    have hls := (to_string_shape hv hz).1
    obtain ⟨hs, hine, hidig, hihead, hfdig, hflast, hzp⟩ := hv
    rw [parse_eq, hls]
    simp only []
    rw [hio, hfo, trim_leading_id_of_norm hidig hihead, trim_trailing_id hflast]
    have hcond : ¬ (v.intPart = ['0'] ∧ v.fracPart = []) := by
      intro hc
      exact hz ((isZero_iff v).mpr hc)
    rw [if_neg hcond]

theorem to_string_valid {v : BigDecimal} (hv : Normalized v) :
    is_valid_double_literal (to_string v) = true := by
  by_cases hz : v.isZero = true
  · rw [to_string_zero hz]
    decide
  · obtain ⟨hio, hfo⟩ := (to_string_shape hv hz).2
    have hls := (to_string_shape hv hz).1
    obtain ⟨hs, hine, hidig, hihead, hfdig, hflast, hzp⟩ := hv
    rw [valid_eq_rest, hls]
    simp only []
    rw [valid_rest_iff]
    by_cases hf : v.fracPart = []
    · refine ⟨v.intPart, hine, hidig, Or.inl ?_⟩
      rw [if_neg (by simp [hf])]
      rw [List.append_nil]
    · refine ⟨v.intPart, hine, hidig, Or.inr ⟨v.fracPart, hf, hfdig, ?_⟩⟩
      rw [if_pos hf]

theorem litQ_to_string {v : BigDecimal} (hv : Normalized v) :
    litQ (to_string v) = valQ v := by
  have h1 := parse_spec (to_string v) (to_string_valid hv)
  rw [parse_to_string hv] at h1
  exact h1.2.symm

/-! ### Commutativity -/

theorem addLoop_comm (as : List Char) : ∀ (bs : List Char) (c : Nat),
    addLoop as bs c = addLoop bs as c := by
  induction as with
  | nil =>
    intro bs c
    cases bs <;> rfl
  | cons a as ih =>
    intro bs c
    cases bs with
    | nil => rfl
    | cons b bs =>
      rw [addLoop_cons, addLoop_cons]
      have hcomm : dChar b + dChar a + c = dChar a + dChar b + c := by ring
      rw [hcomm, ih]

theorem align_swap_fst (a b : BigDecimal) :
    (align_frac a b).1.fracPart = (align_frac b a).2.fracPart := by
  rw [align_fst_frac, align_snd_frac, Nat.max_comm]

theorem align_swap_snd (a b : BigDecimal) :
    (align_frac a b).2.fracPart = (align_frac b a).1.fracPart := by
  rw [align_fst_frac, align_snd_frac, Nat.max_comm]

theorem add_abs_comm (a b : BigDecimal) : add_abs a b = add_abs b a := by
  set FOab := addLoop (align_frac a b).1.fracPart.reverse
    (align_frac a b).2.fracPart.reverse 0 with hFOab
  set FOba := addLoop (align_frac b a).1.fracPart.reverse
    (align_frac b a).2.fracPart.reverse 0 with hFOba
  have hFO : FOab = FOba := by
    rw [hFOab, hFOba, addLoop_comm, align_swap_snd a b, align_swap_fst a b]
  set IRab := addLoop (left_pad a.intPart b.intPart.length).reverse
    (left_pad b.intPart a.intPart.length).reverse FOab.2 with hIRab
  set IRba := addLoop (left_pad b.intPart a.intPart.length).reverse
    (left_pad a.intPart b.intPart.length).reverse FOba.2 with hIRba
  have hIR : IRab = IRba := by
    rw [hIRab, hIRba, hFO, addLoop_comm]
  have h1 : add_abs a b =
      { sign := 1,
        intPart := trim_leading_zeros
          (if IRab.2 ≠ 0 then Char.ofNat (48 + IRab.2) :: IRab.1.reverse
           else IRab.1.reverse),
        fracPart := trim_trailing_zeros FOab.1.reverse } := rfl
  have h2 : add_abs b a =
      { sign := 1,
        intPart := trim_leading_zeros
          (if IRba.2 ≠ 0 then Char.ofNat (48 + IRba.2) :: IRba.1.reverse
           else IRba.1.reverse),
        fracPart := trim_trailing_zeros FOba.1.reverse } := rfl
  rw [h1, h2, hFO, hIR]

theorem add_signed_comm (a b : BigDecimal) (ha : Normalized a) (hb : Normalized b) :
    add_signed a b = add_signed b a := by
  by_cases hza : a.isZero = true
  · by_cases hzb : b.isZero = true
    · have h1 : add_signed a b = b := by unfold add_signed; rw [if_pos hza]
      have h2 : add_signed b a = a := by unfold add_signed; rw [if_pos hzb]
      rw [h1, h2, normalized_zero_eq ha hza, normalized_zero_eq hb hzb]
    · have h1 : add_signed a b = b := by unfold add_signed; rw [if_pos hza]
      have h2 : add_signed b a = b := by
        unfold add_signed
        rw [if_neg hzb, if_pos hza]
      rw [h1, h2]
  · by_cases hzb : b.isZero = true
    · have h1 : add_signed a b = a := by
        unfold add_signed
        rw [if_neg hza, if_pos hzb]
      have h2 : add_signed b a = a := by unfold add_signed; rw [if_pos hzb]
      rw [h1, h2]
    · by_cases hss : a.sign = b.sign
      · have h1 : add_signed a b =
            (if ({ add_abs a b with sign := a.sign } : BigDecimal).isZero = true
             then { add_abs a b with sign := 1 }
             else { add_abs a b with sign := a.sign }) := by
          unfold add_signed
          rw [if_neg hza, if_neg hzb, if_pos hss]
        have h2 : add_signed b a =
            (if ({ add_abs b a with sign := b.sign } : BigDecimal).isZero = true
             then { add_abs b a with sign := 1 }
             else { add_abs b a with sign := b.sign }) := by
          unfold add_signed
          rw [if_neg hzb, if_neg hza, if_pos hss.symm]
        rw [h1, h2, add_abs_comm a b, hss]
      · have hss2 : ¬ b.sign = a.sign := fun h => hss h.symm
        rcases cmp_abs_spec a b ha hb with ⟨hc, hv⟩ | ⟨hc, hv⟩ | ⟨hc, hv⟩ <;>
          rcases cmp_abs_spec b a hb ha with ⟨hc2, hv2⟩ | ⟨hc2, hv2⟩ | ⟨hc2, hv2⟩
        · exact absurd (hv.trans hv2) (lt_irrefl _)
        · exact absurd hv2 (ne_of_gt hv)
        · -- cmp a b = -1, cmp b a = 1
          have h1 : add_signed a b =
              (if ({ sub_abs b a with sign := b.sign } : BigDecimal).isZero = true
               then { sub_abs b a with sign := 1 }
               else { sub_abs b a with sign := b.sign }) := by
            unfold add_signed
            rw [if_neg hza, if_neg hzb, if_neg hss, hc]
            norm_num
          have h2 : add_signed b a =
              (if ({ sub_abs b a with sign := b.sign } : BigDecimal).isZero = true
               then { sub_abs b a with sign := 1 }
               else { sub_abs b a with sign := b.sign }) := by
            unfold add_signed
            rw [if_neg hzb, if_neg hza, if_neg hss2, hc2]
            norm_num
          rw [h1, h2]
        · exact absurd hv (ne_of_gt hv2)
        · -- both equal
          have h1 : add_signed a b = canonicalZero := by
            unfold add_signed
            rw [if_neg hza, if_neg hzb, if_neg hss, hc]
            norm_num
            rfl
          have h2 : add_signed b a = canonicalZero := by
            unfold add_signed
            rw [if_neg hzb, if_neg hza, if_neg hss2, hc2]
            norm_num
            rfl
          rw [h1, h2]
        · exact absurd hv (ne_of_lt hv2)
        · -- cmp a b = 1, cmp b a = -1
          have h1 : add_signed a b =
              (if ({ sub_abs a b with sign := a.sign } : BigDecimal).isZero = true
               then { sub_abs a b with sign := 1 }
               else { sub_abs a b with sign := a.sign }) := by
            unfold add_signed
            rw [if_neg hza, if_neg hzb, if_neg hss, hc]
            norm_num
          have h2 : add_signed b a =
              (if ({ sub_abs a b with sign := a.sign } : BigDecimal).isZero = true
               then { sub_abs a b with sign := 1 }
               else { sub_abs a b with sign := a.sign }) := by
            unfold add_signed
            rw [if_neg hzb, if_neg hza, if_neg hss2, hc2]
            norm_num
          rw [h1, h2]
        · exact absurd hv2 (ne_of_lt hv)
        · exact absurd (hv.trans hv2) (lt_irrefl _)

/-! ### Zero shortcut lemmas -/

theorem add_signed_zero_left (b : BigDecimal) : add_signed canonicalZero b = b := by
  unfold add_signed
  rw [if_pos (by decide)]

theorem add_signed_zero_right {a : BigDecimal} (ha : Normalized a) :
    add_signed a canonicalZero = a := by
  by_cases hz : a.isZero = true
  · have h1 : add_signed a canonicalZero = canonicalZero := by
      unfold add_signed
      rw [if_pos hz]
    rw [h1, normalized_zero_eq ha hz]
  · unfold add_signed
    rw [if_neg hz, if_pos (by decide)]

/-! ### The claims -/

/-- C1: for all valid literals `a` and `b`, formatting
`addSigned(parse(a), parse(b))` yields a literal denoting exactly the
mathematical sum of the two literals' values (no precision loss for
operands of any length); in particular `0.1 + 0.2` formats as `"0.3"` and
the sum of two 50-digit integer literals is the exact 51-digit result. -/
theorem claim_C1 :
    (∀ a b : List Char, is_valid_double_literal a = true →
      is_valid_double_literal b = true →
      litQ (to_string (add_signed (parse_normalize a) (parse_normalize b))) =
        litQ a + litQ b) ∧
    to_string (add_signed (parse_normalize ("0.1".toList))
        (parse_normalize ("0.2".toList))) = "0.3".toList ∧
    to_string (add_signed
        (parse_normalize ("99999999999999999999999999999999999999999999999999".toList))
        (parse_normalize ("99999999999999999999999999999999999999999999999999".toList))) =
      "199999999999999999999999999999999999999999999999998".toList := by
  refine ⟨?_, by decide, by decide⟩
  intro a b hva hvb
  obtain ⟨hna, hqa⟩ := parse_spec a hva
  obtain ⟨hnb, hqb⟩ := parse_spec b hvb
  obtain ⟨hnr, hqr⟩ := add_signed_spec _ _ hna hnb
  rw [litQ_to_string hnr, hqr, hqa, hqb]

theorem claim_C1_witness :
    litQ (to_string (add_signed (parse_normalize ("1.5".toList))
        (parse_normalize ("-0.25".toList)))) =
      litQ ("1.5".toList) + litQ ("-0.25".toList) :=
  claim_C1.1 ("1.5".toList) ("-0.25".toList) (by decide) (by decide)

/-- C2 (counterexample): the spec asserts that `+0001.0` plus `-0001.005`
formats as `"-1.005"`, but the program formats this sum as `"-0.005"`
(which is the mathematically exact value of `1 + (-1.005)`). -/
theorem claim_C2_counterexample :
    ¬ (to_string (add_signed (parse_normalize ("+0001.0".toList))
        (parse_normalize ("-0001.005".toList))) = "-1.005".toList) := by
  decide

/-- C2 (amended): for the input pair `+0001.0` and `-0001.005`, both
tokens pass the validator, they parse to normalized `1` and `-1.005`, and
the sum formats as `"-0.005"`. -/
theorem claim_C2 :
    is_valid_double_literal ("+0001.0".toList) = true ∧
    is_valid_double_literal ("-0001.005".toList) = true ∧
    parse_normalize ("+0001.0".toList) =
      { sign := 1, intPart := ['1'], fracPart := [] } ∧
    parse_normalize ("-0001.005".toList) =
      { sign := -1, intPart := ['1'], fracPart := ['0', '0', '5'] } ∧
    to_string (add_signed (parse_normalize ("+0001.0".toList))
        (parse_normalize ("-0001.005".toList))) = "-0.005".toList := by
  exact ⟨by decide, by decide, by decide, by decide, by decide⟩

/-- C3: the validator accepts exactly the strings matching the grammar
(optional single sign, one-or-more digits, optionally one `'.'` and
one-or-more digits), and in particular accepts and rejects the listed
examples. -/
theorem claim_C3 :
    (∀ x : List Char, is_valid_double_literal x = true ↔ grammarValid x) ∧
    is_valid_double_literal ("1".toList) = true ∧
    is_valid_double_literal ("1.0".toList) = true ∧
    is_valid_double_literal ("+1.0".toList) = true ∧
    is_valid_double_literal ("+0001.0".toList) = true ∧
    is_valid_double_literal ("-0001.005".toList) = true ∧
    is_valid_double_literal ("A".toList) = false ∧
    is_valid_double_literal ("+-1".toList) = false ∧
    is_valid_double_literal ("-5.".toList) = false ∧
    is_valid_double_literal ("-.5".toList) = false ∧
    is_valid_double_literal ("-5.-5".toList) = false ∧
    is_valid_double_literal ("".toList) = false ∧
    is_valid_double_literal ("+".toList) = false ∧
    is_valid_double_literal ("1..2".toList) = false := by
  exact ⟨valid_iff_grammar, by decide, by decide, by decide, by decide, by decide,
    by decide, by decide, by decide, by decide, by decide, by decide, by decide,
    by decide⟩

theorem claim_C3_witness : grammarValid ("+0001.0".toList) :=
  (claim_C3.1 ("+0001.0".toList)).mp (by decide)

/-- C4: signed addition of parsed valid literals is commutative. -/
theorem claim_C4 : ∀ a b : List Char, is_valid_double_literal a = true →
    is_valid_double_literal b = true →
    add_signed (parse_normalize a) (parse_normalize b) =
      add_signed (parse_normalize b) (parse_normalize a) := by
  intro a b hva hvb
  exact add_signed_comm _ _ (parse_spec a hva).1 (parse_spec b hvb).1

theorem claim_C4_witness :
    add_signed (parse_normalize ("-1.2".toList)) (parse_normalize ("3.45".toList)) =
      add_signed (parse_normalize ("3.45".toList)) (parse_normalize ("-1.2".toList)) :=
  claim_C4 ("-1.2".toList) ("3.45".toList) (by decide) (by decide)

/-- C5: adding the parsed literal `"0"` to any parsed valid literal
returns it unchanged, and more generally `addSigned` returns the other
operand unchanged whenever either operand is canonical zero. -/
theorem claim_C5 :
    (∀ x : List Char, is_valid_double_literal x = true →
      add_signed (parse_normalize x) (parse_normalize ("0".toList)) =
        parse_normalize x) ∧
    (∀ a b : BigDecimal, a = canonicalZero → add_signed a b = b) ∧
    (∀ a b : BigDecimal, Normalized a → b = canonicalZero → add_signed a b = a) := by
  refine ⟨?_, ?_, ?_⟩
  · intro x hv
    have hz : parse_normalize ("0".toList) = canonicalZero := by decide
    rw [hz]
    exact add_signed_zero_right (parse_spec x hv).1
  · intro a b ha
    rw [ha]
    exact add_signed_zero_left b
  · intro a b ha hb
    rw [hb]
    exact add_signed_zero_right ha

theorem claim_C5_witness :
    add_signed (parse_normalize ("42.7".toList)) (parse_normalize ("0".toList)) =
      parse_normalize ("42.7".toList) :=
  claim_C5.1 ("42.7".toList) (by decide)

/-- C6: any `addSigned` result on normalized operands whose magnitude is
zero is the canonical zero (positive sign, `"0"`, empty fraction) and
formats as `"0"`; the formatter never emits a sign for a zero value. -/
theorem claim_C6 :
    (∀ a b : BigDecimal, Normalized a → Normalized b →
      (add_signed a b).isZero = true →
      add_signed a b = canonicalZero ∧ to_string (add_signed a b) = ['0']) ∧
    (∀ v : BigDecimal, v.isZero = true → to_string v = ['0']) := by
  refine ⟨?_, fun v hv => to_string_zero hv⟩
  intro a b ha hb hz
  have h1 := (add_signed_spec a b ha hb).1
  exact ⟨normalized_zero_eq h1 hz, to_string_zero hz⟩

theorem claim_C6_witness :
    add_signed { sign := 1, intPart := ['1'], fracPart := [] }
        { sign := -1, intPart := ['1'], fracPart := [] } = canonicalZero ∧
    to_string (add_signed { sign := 1, intPart := ['1'], fracPart := [] }
        { sign := -1, intPart := ['1'], fracPart := [] }) = ['0'] :=
  claim_C6.1 { sign := 1, intPart := ['1'], fracPart := [] }
    { sign := -1, intPart := ['1'], fracPart := [] } (by decide) (by decide) (by decide)

/-- C7: on normalized operands with `|a| >= |b|` as decided by `cmp_abs`,
`sub_abs` returns the exact magnitude `|a| - |b|` as a fully normalized,
non-negative (positive-sign) value. -/
theorem claim_C7 : ∀ a b : BigDecimal, Normalized a → Normalized b →
    cmp_abs a b ≠ -1 →
    Normalized (sub_abs a b) ∧ (sub_abs a b).sign = 1 ∧
    absQ (sub_abs a b) = absQ a - absQ b ∧
    valQ (sub_abs a b) = absQ a - absQ b := by
  intro a b ha hb hc
  have hle : absQ b ≤ absQ a := by
    rcases cmp_abs_spec a b ha hb with ⟨h1, h2⟩ | ⟨h1, h2⟩ | ⟨h1, h2⟩
    · exact absurd h1 hc
    · exact le_of_eq h2.symm
    · exact le_of_lt h2
  obtain ⟨hn, hs, hq⟩ := sub_abs_spec a b ha hb hle
  refine ⟨hn, hs, hq, ?_⟩
  unfold valQ
  rw [hs, hq]
  norm_num

theorem claim_C7_witness :
    Normalized (sub_abs { sign := 1, intPart := ['2'], fracPart := ['5'] }
        { sign := 1, intPart := ['1'], fracPart := [] }) ∧
    (sub_abs { sign := 1, intPart := ['2'], fracPart := ['5'] }
        { sign := 1, intPart := ['1'], fracPart := [] }).sign = 1 ∧
    absQ (sub_abs { sign := 1, intPart := ['2'], fracPart := ['5'] }
        { sign := 1, intPart := ['1'], fracPart := [] }) =
      absQ { sign := 1, intPart := ['2'], fracPart := ['5'] } -
        absQ { sign := 1, intPart := ['1'], fracPart := [] } ∧
    valQ (sub_abs { sign := 1, intPart := ['2'], fracPart := ['5'] }
        { sign := 1, intPart := ['1'], fracPart := [] }) =
      absQ { sign := 1, intPart := ['2'], fracPart := ['5'] } -
        absQ { sign := 1, intPart := ['1'], fracPart := [] } :=
  claim_C7 { sign := 1, intPart := ['2'], fracPart := ['5'] }
    { sign := 1, intPart := ['1'], fracPart := [] } (by decide) (by decide) (by decide)

/-- C8: on normalized operands, `cmp_abs` returns `-1`, `0`, or `1`
exactly according to the numeric comparison of the magnitudes. -/
theorem claim_C8 : ∀ a b : BigDecimal, Normalized a → Normalized b →
    ((cmp_abs a b = -1 ↔ absQ a < absQ b) ∧
     (cmp_abs a b = 0 ↔ absQ a = absQ b) ∧
     (cmp_abs a b = 1 ↔ absQ b < absQ a)) := by
  intro a b ha hb
  rcases cmp_abs_spec a b ha hb with ⟨h1, h2⟩ | ⟨h1, h2⟩ | ⟨h1, h2⟩
  · refine ⟨⟨fun _ => h2, fun _ => h1⟩, ⟨?_, ?_⟩, ⟨?_, ?_⟩⟩
    · intro hh
      rw [h1] at hh
      exact absurd hh (by decide)
    · intro hh
      exact absurd hh (ne_of_lt h2)
    · intro hh
      rw [h1] at hh
      exact absurd hh (by decide)
    · intro hh
      exact absurd (h2.trans hh) (lt_irrefl _)
  · refine ⟨⟨?_, ?_⟩, ⟨fun _ => h2, fun _ => h1⟩, ⟨?_, ?_⟩⟩
    · intro hh
      rw [h1] at hh
      exact absurd hh (by decide)
    · intro hh
      exact absurd h2 (ne_of_lt hh)
    · intro hh
      rw [h1] at hh
      exact absurd hh (by decide)
    · intro hh
      exact absurd h2 (ne_of_gt hh)
  · refine ⟨⟨?_, ?_⟩, ⟨?_, ?_⟩, ⟨fun _ => h2, fun _ => h1⟩⟩
    · intro hh
      rw [h1] at hh
      exact absurd hh (by decide)
    · intro hh
      exact absurd (h2.trans hh) (lt_irrefl _)
    · intro hh
      rw [h1] at hh
      exact absurd hh (by decide)
    · intro hh
      exact absurd hh (ne_of_gt h2)

theorem claim_C8_witness :
    (cmp_abs { sign := 1, intPart := ['1'], fracPart := ['5'] }
        { sign := -1, intPart := ['2'], fracPart := [] } = -1 ↔
      absQ { sign := 1, intPart := ['1'], fracPart := ['5'] } <
        absQ { sign := -1, intPart := ['2'], fracPart := [] }) ∧
    (cmp_abs { sign := 1, intPart := ['1'], fracPart := ['5'] }
        { sign := -1, intPart := ['2'], fracPart := [] } = 0 ↔
      absQ { sign := 1, intPart := ['1'], fracPart := ['5'] } =
        absQ { sign := -1, intPart := ['2'], fracPart := [] }) ∧
    (cmp_abs { sign := 1, intPart := ['1'], fracPart := ['5'] }
        { sign := -1, intPart := ['2'], fracPart := [] } = 1 ↔
      absQ { sign := -1, intPart := ['2'], fracPart := [] } <
        absQ { sign := 1, intPart := ['1'], fracPart := ['5'] }) :=
  claim_C8 { sign := 1, intPart := ['1'], fracPart := ['5'] }
    { sign := -1, intPart := ['2'], fracPart := [] } (by decide) (by decide)

/-- C9: every value produced at the public interface — by the parser on a
valid literal or by signed addition on normalized operands — satisfies the
normalization invariants. -/
theorem claim_C9 :
    (∀ x : List Char, is_valid_double_literal x = true →
      Normalized (parse_normalize x)) ∧
    (∀ a b : BigDecimal, Normalized a → Normalized b →
      Normalized (add_signed a b)) :=
  ⟨fun x hv => (parse_spec x hv).1, fun a b ha hb => (add_signed_spec a b ha hb).1⟩

theorem claim_C9_witness : Normalized (parse_normalize ("-0001.005".toList)) :=
  claim_C9.1 ("-0001.005".toList) (by decide)

/-- C10: parsing the formatted text of any normalized value recovers the
value exactly (`parse` is a left inverse of `format` on normalized values,
hence `format` is injective there). -/
theorem claim_C10 :
    (∀ v : BigDecimal, Normalized v → parse_normalize (to_string v) = v) ∧
    (∀ u v : BigDecimal, Normalized u → Normalized v →
      to_string u = to_string v → u = v) := by
  constructor
  · exact fun v hv => parse_to_string hv
  · intro u v hu hv he
    have h1 := parse_to_string hu
    have h2 := parse_to_string hv
    rw [← h1, ← h2, he]

theorem claim_C10_witness :
    parse_normalize (to_string (⟨-1, ['1'], ['0', '0', '5']⟩ : BigDecimal)) =
      (⟨-1, ['1'], ['0', '0', '5']⟩ : BigDecimal) :=
  claim_C10.1 (⟨-1, ['1'], ['0', '0', '5']⟩ : BigDecimal) (by decide)

end Lab10
